import Mathlib

/-!
Verification of the `git-casefile` core against its specification.

This file gives a shallow embedding, in Lean 4, of the parts of the
`git-casefile` JavaScript sources that the checked claims are about:

* the result-resolution step of the subprocess command runner
  (`lib/commandRunner.js`, function `stepExit`);
* the diff hunk-header interpretation of `DiffInteraction.getHunks`
  (`lib/diffInteraction.js`);
* the hunk-walking loop of `BookmarkFacilitator.computeCurrentLineRange`
  and the search strategy of `BookmarkFacilitator.currentLocation`
  (`src/lib/bookmarkFacilitator.js`);
* `findLatestCommitParentWithPath`, `getCasefile`, `shareCasefile`,
  `deleteCasefilePaths` and the `getDeletedCasefileRefs` log parser of
  `GitInteraction` (`src/lib/gitInteraction.js`).

Pure computations are translated directly.  Interactions with the `git`
subprocess are modelled by an explicit store of refs, commits and trees
(`GitState`), a family of content-addressing functions (`GitEnv`), and an
explicit trace of issued git commands (`List GitCmd`), so that ordering
properties (such as `update-ref` happening only after a successful `push`)
are visible in the embedding.  JavaScript `undefined` is rendered as
`Option.none`, thrown exceptions as `Except.error`, and JS numbers as `Int`
(all the arithmetic involved is exact on integers).
-/

namespace GitCasefile

/-! ## Basic string helpers

`findSubstrIdx` models `String.prototype.indexOf` restricted to the
character-sequence view of strings: it returns the least index at which
`needle` occurs inside `hay`, or `none`.  `String.prototype.includes`
is `(findSubstrIdx needle hay).isSome`. -/

/-- Least index at which `needle` occurs in `hay` (as `String.prototype.indexOf`). -/
def findSubstrIdx (needle : List Char) : List Char → Option Nat
  | [] => if needle = [] then some 0 else none
  | c :: rest =>
      if needle.isPrefixOf (c :: rest) then some 0
      else (findSubstrIdx needle rest).map (· + 1)

/-- Split a character list at every occurrence of `sep`
(the semantics of `String.prototype.split` with a one-character separator). -/
def splitChar (sep : Char) : List Char → List (List Char)
  | [] => [[]]
  | c :: rest =>
      if c = sep then [] :: splitChar sep rest
      else match splitChar sep rest with
        | [] => [[c]]
        | part :: parts => (c :: part) :: parts

/-- Split a string at every `/` (used to resolve tree paths, one component
per level, as `git` itself resolves `rev:path`). -/
def splitSlash (s : String) : List String :=
  (splitChar '/' s.data).map List.asString

/-- Embedding of `strrpart(s, sep, 2)` from `lib/stringUtils.js`: split `s`
at the right-most occurrence of `sep` into at most two parts; if `sep` does
not occur, the result is the one-element list `[s]`. -/
def strrpart2 (s : String) (sep : Char) : List String :=
  match splitChar sep s.data with
  | [] => [s]
  | [_] => [s]
  | parts =>
      [(String.intercalate (String.singleton sep) ((parts.dropLast).map List.asString)),
       (parts.getLastD []).asString]

/-! ## C7 — CommandRunner result resolution (`stepExit`)

From `lib/commandRunner.js` lines 308–325.  The function below embeds the
body of `stepExit` at the moment the completion condition
(`Object.values(closesComplete).every(flag => flag !== false)`) holds and
`exitCode` is the child process exit code.  `exit`, `makeResult` and
`result` are the corresponding invocation keywords; absent keywords are
`none`.  JavaScript truthiness of `exitCode` is `exitCode ≠ 0` (the exit
code of a terminated process is a number). -/

/-- Errors raised by the command runner that are relevant here. -/
inductive CmdErr where
  | childProcessFailure (exitCode : Int)
  deriving Repr, DecidableEq

/-- Embedding of `stepExit` (lib/commandRunner.js:308–325): resolution of a
tool invocation once the child process has exited with `exitCode`. -/
def stepExit {α : Type} (exitCode : Int) (exit : Option (Int → α))
    (makeResult : Option (Unit → α)) (result : α) : Except CmdErr α :=
  match exit with
  | some f => .ok (f exitCode)
  | none =>
      if exitCode ≠ 0 then .error (.childProcessFailure exitCode)
      else .ok (match makeResult with
        | some g => g ()
        | none => result)

/-! ## C8 — Diff hunk-header interpretation

From `lib/diffInteraction.js`: the record handler of `getHunks` matches each
line against `^@@\s*-?(\d+)(?:,(\d+))?\s+\+?(\d+)(?:,(\d+))?` and builds a
`Change` from the numeric captures `S = parts[1]`, `L = parts[2]`,
`T = parts[3]`, `M = parts[4]` (the optional captures are `none` when
absent).  Line numbers are embedded as `Int`. -/

/-- A diff hunk as produced by `getHunks` (`Change` in the JSDoc of
`lib/diffInteraction.js`). -/
structure Change where
  baseStart : Int
  baseEnd : Int
  currentStart : Int
  currentEnd : Int
  deriving Repr, DecidableEq

/-- Embedding of the hunk construction in the `getHunks` record handler
(lib/diffInteraction.js:203–214), given the numeric captures of the hunk
header regex. -/
def mkHunk (S : Int) (L : Option Int) (T : Int) (M : Option Int) : Change :=
  let newHunk : Change :=
    { baseStart := S, baseEnd := S + L.getD 1,
      currentStart := T, currentEnd := T + M.getD 1 }
  let newHunk :=
    if L = some 0 then
      { newHunk with baseStart := newHunk.baseStart + 1, baseEnd := newHunk.baseStart + 1 }
    else newHunk
  if M = some 0 then
    { newHunk with currentStart := newHunk.currentStart + 1, currentEnd := newHunk.currentStart + 1 }
  else newHunk

/-! ## C9 — `computeCurrentLineRange` hunk walk

From `src/lib/bookmarkFacilitator.js` lines 270–300.  The loop walks the
hunk list, keeping a running `currentOffset`; the embedded loop is the body
of the `for` statement together with the final fall-through return.  The
interior interpolation `Math.floor((line - baseStart) / (baseEnd -
baseStart) * (currentEnd - currentStart))` is rendered with exact integer
arithmetic (`Int.fdiv` floors toward negative infinity, as `Math.floor`). -/

/-- Result of `computeCurrentLineRange`: a candidate current-line range with
a preferred guess `prime`. -/
structure LineRange where
  start : Int
  prime : Int
  «end» : Int
  deriving Repr, DecidableEq

/-- Embedding of the hunk loop of `computeCurrentLineRange`
(src/lib/bookmarkFacilitator.js:270–300), with `currentOffset` the running
accumulator. -/
def computeRangeLoop (line : Int) : List Change → Int → LineRange
  | [], currentOffset =>
      { start := line + currentOffset, prime := line + currentOffset,
        «end» := line + currentOffset + 1 }
  | hunk :: rest, currentOffset =>
      if line < hunk.baseStart then
        { start := line + currentOffset, prime := line + currentOffset,
          «end» := line + currentOffset + 1 }
      else if hunk.baseStart ≤ line ∧ line < hunk.baseEnd then
        { start := hunk.currentStart,
          prime := hunk.currentStart +
            ((line - hunk.baseStart) * (hunk.currentEnd - hunk.currentStart)).fdiv
              (hunk.baseEnd - hunk.baseStart),
          «end» := hunk.currentEnd }
      else if hunk.baseStart = line then
        { start := hunk.currentStart,
          prime := (hunk.currentStart + hunk.currentEnd).fdiv 2,
          «end» := hunk.currentEnd }
      else
        computeRangeLoop line rest (hunk.currentEnd - hunk.baseEnd)

/-- The pure core of `computeCurrentLineRange`: walk the hunks starting with
offset 0 (the surrounding code only fetches the content and hunks). -/
def computeCurrentLineRange (line : Int) (hunks : List Change) : LineRange :=
  computeRangeLoop line hunks 0

/-! ## C3 / C10 — `findLatestCommitParentWithPath` and `getCasefile`

From `src/lib/gitInteraction.js` lines 174–200 and 125–146.  The parent
list comes from `git rev-parse <committish>^@` and the per-parent date from
`getDateOfLastChange` (`git log --pretty=%ci -n1 <parent> -- <path>`,
parsed with `Date.getTime()`); both are external and are modelled as inputs
(`parents` and the partial `dates` function, with `none` meaning the date
lookup rejected, in which case the parent is skipped). -/

/-- Accumulator of the reduce in `findLatestCommitParentWithPath`; the
initial value `{date: 0}` has no `commit` property, rendered as `none`. -/
structure BestParent where
  date : Int
  commit : Option String
  deriving Repr, DecidableEq

/-- One step of the reduce in `findLatestCommitParentWithPath`
(src/lib/gitInteraction.js:191–196):
`(!newData || bestYet.date > newData.date) ? bestYet : newData`. -/
def bestParentStep (dates : String → Option Int) (bestYet : BestParent)
    (commit : String) : BestParent :=
  match dates commit with
  | none => bestYet
  | some d => if bestYet.date > d then bestYet else ⟨d, some commit⟩

/-- Embedding of `findLatestCommitParentWithPath`
(src/lib/gitInteraction.js:174–200). -/
def findLatestCommitParentWithPath (dates : String → Option Int)
    (parents : List String) : Option String :=
  (parents.foldl (bestParentStep dates) ⟨0, none⟩).commit

/-- JavaScript template-literal rendering of a possibly-`undefined` string. -/
def jsShow : Option String → String
  | some s => s
  | none => "undefined"

/-- The `git cat-file blob` target built by `getCasefile` when
`beforeCommit` is set (src/lib/gitInteraction.js:125–146): the template
literal interpolates the commit resolved by
`findLatestCommitParentWithPath`, stringifying `undefined` verbatim. -/
def getCasefileCatFileTarget (dates : String → Option Int)
    (parents : List String) (path : String) : String :=
  (jsShow (findLatestCommitParentWithPath dates parents) ++ ":") ++ path

/-! ## C2 — `BookmarkFacilitator.currentLocation`

From `src/lib/bookmarkFacilitator.js` lines 108–177.  The edit buffer is a
1-based list of lines; `lineText` returns `undefined` outside the buffer.
The two peg strategies call the external `git`/`diff` machinery; their
outcomes are inputs here (`PegOracle`): `blame` is the result of
`retrieveBlameMatchLine` (a line, or any failure — `LineNotFound` and other
errors continue identically into the diff fallback), `range` is the result
of `computeCurrentLineRange` (which is total: it returns a fallback range
on any internal error).  A `none` result models rejection with
`MarkNotFound`. -/

/-- The untracked search window of `currentLocation`
(src/lib/bookmarkFacilitator.js:6). -/
def UNTRACKED_WINDOW_SIZE : Nat := 15

/-- The resolved value of `currentLocation`. -/
structure FoundLocation where
  file : String
  line : Int
  col : Int
  deriving Repr, DecidableEq

/-- The `lineText` operation of an edit buffer (lib/editor.js:48):
`lines[lnum - 1]`, `undefined` out of range. -/
def lineText (buf : List String) (i : Int) : Option String :=
  if h : 1 ≤ i ∧ i ≤ buf.length then some (buf.get ⟨(i - 1).toNat, by omega⟩)
  else none

/-- The `rowHasText` predicate of `currentLocation`
(src/lib/bookmarkFacilitator.js:111–114): the line exists, is non-empty
(JS truthiness) and contains the mark text. -/
def rowHasText (buf : List String) (text : String) (i : Int) : Bool :=
  match lineText buf i with
  | none => false
  | some s => if s = "" then false else (findSubstrIdx text.data s.data).isSome

/-- The value resolved by `findAndReportTextInRow`
(src/lib/bookmarkFacilitator.js:117–125) when row `i` has the text:
`col` is `indexOf(text) + 1`. -/
def findTextInRow (buf : List String) (filePath text : String) (i : Int) :
    Option FoundLocation :=
  match lineText buf i with
  | none => none
  | some s =>
      if s = "" then none
      else match findSubstrIdx text.data s.data with
        | none => none
        | some k => some ⟨filePath, i, (k : Int) + 1⟩

/-- First row of `cands` (in order) whose check succeeds. -/
def firstHit (f : Int → Option FoundLocation) : List Int → Option FoundLocation
  | [] => none
  | i :: rest =>
      match f i with
      | some r => some r
      | none => firstHit f rest

/-- Rows checked by `reportMarkLocationWithoutTracking`
(src/lib/bookmarkFacilitator.js:127–135), in order: the starting line, then
for each offset `1 ≤ o ≤ UNTRACKED_WINDOW_SIZE` the rows `line + o` and
`line - o`. -/
def spiralCandidates (line : Int) : List Int :=
  line :: (List.range UNTRACKED_WINDOW_SIZE).flatMap
    (fun o => [line + ((o : Int) + 1), line - ((o : Int) + 1)])

/-- Rows checked by the diff fallback of `currentLocation`
(src/lib/bookmarkFacilitator.js:151–159), in order: `prime`, then for each
`1 ≤ o ≤ max (prime - start) (end - prime)` the rows `prime - o` (when
`start ≤ prime - o`) and `prime + o` (when `prime + o < end`). -/
def radiateCandidates (r : LineRange) : List Int :=
  r.prime :: (List.range (max (r.prime - r.start) (r.«end» - r.prime)).toNat).flatMap
    (fun o =>
      (if r.start ≤ r.prime - ((o : Int) + 1) then [r.prime - ((o : Int) + 1)] else []) ++
      (if r.prime + ((o : Int) + 1) < r.«end» then [r.prime + ((o : Int) + 1)] else []))

/-- Outcomes of the two external peg strategies used by `currentLocation`. -/
structure PegOracle where
  blame : Except Unit Int
  range : LineRange

/-- Embedding of `currentLocation` (src/lib/bookmarkFacilitator.js:108–177):
with no peg, the spiral search from the recorded line; with a peg, blame
pinpointing, then the diff-hunk radiating fallback, then the spiral search;
`none` models rejection with `MarkNotFound`. -/
def currentLocation (buf : List String) (filePath text : String) (line : Int)
    (peg : Option PegOracle) : Option FoundLocation :=
  let findRow := findTextInRow buf filePath text
  match peg with
  | none => firstHit findRow (spiralCandidates line)
  | some o =>
      let blameHit :=
        match o.blame with
        | .ok j => findRow j
        | .error _ => none
      match blameHit with
      | some r => some r
      | none =>
          match firstHit findRow (radiateCandidates o.range) with
          | some r => some r
          | none => firstHit findRow (spiralCandidates line)

/-- Concrete buffer for the C2 counterexample: the mark text `penne` occurs
exactly once, on line 17, more than `UNTRACKED_WINDOW_SIZE` lines from
line 1. -/
def farBuffer : List String := List.replicate 16 "aa" ++ ["xpenne"]

/-! ## C6 — `getDeletedCasefileRefs` log parser

From `src/lib/gitInteraction.js` lines 682–751.  The NUL-separated records
produced by `git log -z --diff-filter=D --name-status --pretty=format:"- %H
%ci"` drive a two-state machine (`action`/`path`).  The record stream and
the exit code of the subprocess are the inputs of the embedding; the
`committed` field keeps the raw date string (its conversion through
`new Date(...)` is irrelevant to the claims). -/

/-- First match of the end-of-line pattern `\r?\n|\r` in a character list:
the index and length of the match. -/
def findLineEnd : List Char → Nat → Option (Nat × Nat)
  | [], _ => none
  | c :: rest, idx =>
      if c = '\n' then some (idx, 1)
      else if c = '\r' then
        match rest with
        | '\n' :: _ => some (idx, 2)
        | _ => some (idx, 1)
      else findLineEnd rest (idx + 1)

/-- Whitespace for the purposes of the `\S` character class (the inputs at
hand contain no exotic Unicode spaces). -/
def isSpaceChar (c : Char) : Bool :=
  c == ' ' || c == '\t' || c == '\n' || c == '\r'

/-- Maximal `\S+` run at the head of the input together with the rest. -/
def takeToken : List Char → (List Char × List Char)
  | [] => ([], [])
  | c :: rest =>
      if isSpaceChar c then ([], c :: rest)
      else
        let tr := takeToken rest
        (c :: tr.1, tr.2)

/-- Match of `- (\S+) (\S+ \S+ \S+)` (the `deletedCasefileCommitInfoRegex`
of src/lib/gitInteraction.js:10) anchored at the head of the input; the
regex is deterministic here because `\S+` can never absorb the following
literal space. -/
def matchCommitInfoHere (l : List Char) : Option (String × String) :=
  match l with
  | '-' :: ' ' :: rest =>
      let t1 := takeToken rest
      if t1.1 = [] then none else
      match t1.2 with
      | ' ' :: r2 =>
          let t2 := takeToken r2
          if t2.1 = [] then none else
          match t2.2 with
          | ' ' :: r3 =>
              let t3 := takeToken r3
              if t3.1 = [] then none else
              match t3.2 with
              | ' ' :: r4 =>
                  let t4 := takeToken r4
                  if t4.1 = [] then none
                  else some (t1.1.asString,
                    (t2.1 ++ ' ' :: t3.1 ++ ' ' :: t4.1).asString)
              | _ => none
          | _ => none
      | _ => none
  | _ => none

/-- Unanchored search for the commit-info pattern (the regex has no `^`). -/
def findCommitInfo : List Char → Option (String × String)
  | [] => none
  | c :: rest =>
      match matchCommitInfoHere (c :: rest) with
      | some r => some r
      | none => findCommitInfo rest

/-- The two parser states (`DeletedCasefileListingStates`). -/
inductive DCParseState where
  | action
  | path
  deriving Repr, DecidableEq

/-- One deleted-casefile record emitted by the parser. -/
structure DeletedCasefileRef where
  commit : String
  committed : String
  path : String
  deriving Repr, DecidableEq

/-- Failures while parsing: the explicit `InvalidGitLogOutput` error, and
the `TypeError` JavaScript would raise if a path record arrived while
`commitInfo` is still `null`. -/
inductive DCErr where
  | invalidGitLogOutput
  | nullCommitInfo
  deriving Repr, DecidableEq

/-- Mutable state of the record handler: parse state, last commit info, and
accumulated records. -/
structure DCState where
  parseState : DCParseState
  commitInfo : Option (String × String)
  deletedCasefiles : List DeletedCasefileRef
  deriving Repr, DecidableEq

/-- Initial parser state (`parseState = State.action, commitInfo = null`). -/
def dcInitial : DCState := ⟨.action, none, []⟩

/-- Embedding of the `record` handler of `getDeletedCasefileRefs`
(src/lib/gitInteraction.js:699–735), one NUL-separated record at a time. -/
def dcStep (st : DCState) (rec : String) : Except DCErr DCState :=
  match st.parseState with
  | .action =>
      if rec = "" then .ok st
      else if rec.data.head? = some '-' then
        match findLineEnd rec.data 0 with
        | none => .error .invalidGitLogOutput
        | some il =>
            let ciRec := rec.data.take il.1
            match findCommitInfo ciRec with
            | some info => .ok ⟨.path, some info, st.deletedCasefiles⟩
            | none => .ok ⟨.path, st.commitInfo, st.deletedCasefiles⟩
      else .ok ⟨.path, st.commitInfo, st.deletedCasefiles⟩
  | .path =>
      match st.commitInfo with
      | none => .error .nullCommitInfo
      | some info =>
          .ok ⟨.action, st.commitInfo,
               st.deletedCasefiles ++ [⟨info.1, info.2, rec⟩]⟩

/-- Run the record handler over all records of the log output. -/
def dcRun (recs : List String) : Except DCErr (List DeletedCasefileRef) :=
  (recs.foldlM dcStep dcInitial).map (·.deletedCasefiles)

/-- Embedding of `getDeletedCasefileRefs` given the NUL-separated records of
the `git log` output and the subprocess exit code: the record handler runs
while output streams (a parse error rejects the invocation); the `exit`
callback then returns the accumulated list on exit 0 and `[]` otherwise. -/
def getDeletedCasefileRefs (recs : List String) (exitCode : Int) :
    Except DCErr (List DeletedCasefileRef) :=
  match dcRun recs with
  | .error e => .error e
  | .ok out => .ok (if exitCode ≠ 0 then [] else out)

/-! ## Git object model for `shareCasefile` / `deleteCasefilePaths`

From `src/lib/gitInteraction.js`.  The repository reached through the `git`
subprocesses is modelled explicitly: `GitState` holds the refs, the
commit-to-tree map and the tree objects (association lists; a write inserts
at the front, so the newest object wins a lookup, as in a content-addressed
store).  `GitEnv` supplies the content-addressing functions (`git
hash-object`, `git mktree`, `git commit-tree` results) and the outcome of
`git push` per push spec.  Every executed git command is appended to a
trace (`List GitCmd`), so ordering claims are statements about traces.
Failures of the embedded operations are the errors the JavaScript methods
throw (`GitInterationError` codes, or `childProcessFailure` for a plain
non-zero git exit). -/

/-- The shared-casefiles ref name (src/lib/gitInteraction.js:7). -/
def sharedCasefilesRef : String := "refs/collaboration/shared-casefiles"

/-- The empty-tree object name (src/lib/gitInteraction.js:11). -/
def gitEmptyTree : String := "4b825dc642cb6eb9a060e54bf8d69288fbee4904"

/-- A `git ls-tree` record (the `TreeEntry` typedef of gitInteraction). -/
structure TreeEntry where
  mode : String
  type : String
  hash : String
  name : String
  deriving Repr, DecidableEq

/-- One git command issued by the driver (the trace alphabet). -/
inductive GitCmd where
  | revParse (committish : String)
  | hashObject (content : String)
  | lsTree (treeish : String)
  | mktree (entries : List TreeEntry)
  | commitTree (tree : String) (parents : List String) (message : String)
  | push (remote : String) (source : String) (dest : String)
  | updateRef (ref : String) (commit : String)
  deriving Repr, DecidableEq

/-- Discriminator: is this command a `git mktree`? -/
def GitCmd.isMktree : GitCmd → Bool
  | .mktree _ => true
  | _ => false

/-- Discriminator: is this command a `git commit-tree`? -/
def GitCmd.isCommitTree : GitCmd → Bool
  | .commitTree .. => true
  | _ => false

/-- Discriminator: is this command a `git push`? -/
def GitCmd.isPush : GitCmd → Bool
  | .push .. => true
  | _ => false

/-- Discriminator: is this command a `git update-ref`? -/
def GitCmd.isUpdateRef : GitCmd → Bool
  | .updateRef .. => true
  | _ => false

/-- Errors of the git driver (`GitInterationError` codes;
`childProcessFailure` stands for a failing git subprocess without a local
`exit` handler). -/
inductive GErr where
  | invalidCommittish
  | gitWriteFailed
  | invalidTreeEntry
  | invalidTreeResult
  | invalidCommit
  | childProcessFailure
  deriving Repr, DecidableEq

/-- The modelled repository: refs, commit objects (commit ↦ root tree) and
tree objects (tree ↦ entries). -/
structure GitState where
  refs : List (String × String)
  commits : List (String × String)
  trees : List (String × List TreeEntry)
  deriving Repr, DecidableEq

/-- Content addressing and remote behavior of the modelled git. -/
structure GitEnv where
  blobHash : String → String
  treeHash : List TreeEntry → String
  commitHash : String → List String → String
  pushOk : String → String → String → Bool

/-- First-match association lookup (front insertions shadow older
objects). -/
def alookup {β : Type} : List (String × β) → String → Option β
  | [], _ => none
  | kv :: rest, k => if kv.1 = k then some kv.2 else alookup rest k

/-- Walk a `/`-separated tree path one component at a time, as `git`
resolves `rev:path`. -/
def walkPath (st : GitState) : List TreeEntry → List String → Option (List TreeEntry)
  | entries, [] => some entries
  | entries, c :: rest =>
      match entries.find? (fun e => e.name = c) with
      | none => none
      | some e =>
          match alookup st.trees e.hash with
          | none => none
          | some sub => walkPath st sub rest

/-- Root tree entries of a revision: the empty tree has no entries; a
commit resolves through its tree object. -/
def rootEntries (st : GitState) (rev : String) : Option (List TreeEntry) :=
  if rev = gitEmptyTree then some []
  else
    match alookup st.commits rev with
    | none => none
    | some th => alookup st.trees th

/-- Behavior of `lsTree` (src/lib/gitInteraction.js:524–542): parse the
`git ls-tree -z --full-tree` records of `rev` or `rev:path`; a failing git
(missing revision or path) makes the `exit` callback return `[]`. -/
def lsTreeSem (st : GitState) (rev : String) (path : Option String) : List TreeEntry :=
  match rootEntries st rev with
  | none => []
  | some root =>
      match path with
      | none => root
      | some p => (walkPath st root (splitSlash p)).getD []

/-- The treeish string passed to `git ls-tree` (recorded in the trace). -/
def lsTreeArg (rev : String) (path : Option String) : String :=
  match path with
  | none => rev
  | some p => rev ++ ":" ++ p

/-- Behavior of `revParse` (src/lib/gitInteraction.js:462–478): a missing
ref fails the subprocess; empty output raises `InvalidCommittish`. -/
def revParseSem (st : GitState) (committish : String) : Except GErr String :=
  match alookup st.refs committish with
  | none => .error .childProcessFailure
  | some c => if c = "" then .error .invalidCommittish else .ok c

/-- Embedding of `mktree` (src/lib/gitInteraction.js:551–578): an entry
name containing `/` is rejected before git runs (`InvalidTreeEntry`);
otherwise `git mktree -z` writes the tree (content-addressed by
`env.treeHash`) and an empty or empty-tree result raises
`InvalidTreeResult`. -/
def mktreeSem (env : GitEnv) (st : GitState) (entries : List TreeEntry) :
    Except GErr String × GitState × List GitCmd :=
  if entries.any (fun e => e.name.data.contains '/') then
    (.error .invalidTreeEntry, st, [])
  else
    let h := env.treeHash entries
    let st1 : GitState := { st with trees := (h, entries) :: st.trees }
    if h = "" ∨ h = gitEmptyTree then
      (.error .invalidTreeResult, st1, [GitCmd.mktree entries])
    else (.ok h, st1, [GitCmd.mktree entries])

/-- Embedding of `commitCasefilesTree` (src/lib/gitInteraction.js:591–609):
`git commit-tree` records a commit; an empty result raises
`InvalidCommit`. -/
def commitCasefilesTreeSem (env : GitEnv) (st : GitState) (tree : String)
    (parents : List String) (message : String) :
    Except GErr String × GitState × List GitCmd :=
  let c := env.commitHash tree parents
  let st1 : GitState := { st with commits := (c, tree) :: st.commits }
  if c = "" then (.error .invalidCommit, st1, [GitCmd.commitTree tree parents message])
  else (.ok c, st1, [GitCmd.commitTree tree parents message])

/-- Embedding of `push` (src/lib/gitInteraction.js:636–661) for one
`PushSpec` object: argv is `remote (source):(dest)`; failure rejects the
invocation. -/
def pushSem (env : GitEnv) (st : GitState) (remote source dest : String) :
    Except GErr Unit × GitState × List GitCmd :=
  if env.pushOk remote source dest then (.ok (), st, [GitCmd.push remote source dest])
  else (.error .childProcessFailure, st, [GitCmd.push remote source dest])

/-- Embedding of `updateRef` (src/lib/gitInteraction.js:669–675). -/
def updateRefSem (st : GitState) (ref commit : String) : GitState :=
  { st with refs := (ref, commit) :: st.refs }

/-- The result object of `shareCasefile`. -/
structure ShareResult where
  message : String
  commit : String
  deriving Repr, DecidableEq

/-- The findIndex / push / splice logic of `shareCasefile`
(src/lib/gitInteraction.js:321–336) on the group tree entries, searching
for the first entry named `inst`: `none` is the no-op branch (the first
such entry already carries `casefileHash`); otherwise the updated entry
list (`newEntry` appended when absent, or replacing the first entry named
`inst`). -/
def upsertEntry (inst casefileHash : String) (newEntry : TreeEntry) :
    List TreeEntry → Option (List TreeEntry)
  | [] => some [newEntry]
  | e :: rest =>
      if e.name = inst then
        if e.hash = casefileHash then none
        else some (newEntry :: rest)
      else (upsertEntry inst casefileHash newEntry rest).map (e :: ·)

/-- Embedding of `shareCasefile` (src/lib/gitInteraction.js:296–357) for a
casefile path destructured by `strrpart(path, '/', 2)` into
`<group>/<instance>`; `content` is the serialized casefile
`JSON.stringify({bookmarks})` fed to `git hash-object -w`.  Returns the
result (or the first error, which rejects the method), the final git state
and the ordered trace of git commands issued. -/
def shareCasefile (env : GitEnv) (st0 : GitState) (remote group inst content : String) :
    Except GErr ShareResult × GitState × List GitCmd :=
  let rp := revParseSem st0 sharedCasefilesRef
  let parentCommits : List String := match rp with | .ok c => [c] | .error _ => []
  let currentCasefilesTree : String := match rp with | .ok c => c | .error _ => gitEmptyTree
  let casefileHash := env.blobHash content
  let tr0 := [GitCmd.revParse sharedCasefilesRef, GitCmd.hashObject content]
  if casefileHash = "" then (.error .gitWriteFailed, st0, tr0)
  else
    let groupTreeEntries := lsTreeSem st0 currentCasefilesTree (some group)
    let tr1 := tr0 ++ [GitCmd.lsTree (lsTreeArg currentCasefilesTree (some group))]
    match upsertEntry inst casefileHash ⟨"100644", "blob", casefileHash, inst⟩ groupTreeEntries with
    | none => (.ok ⟨"no changes to share", currentCasefilesTree⟩, st0, tr1)
    | some newGroupEntries =>
        match mktreeSem env st0 newGroupEntries with
        | (.error e, st1, trM) => (.error e, st1, tr1 ++ trM)
        | (.ok groupTreeHash, st1, trM) =>
            let rootTreeEntries :=
              (lsTreeSem st1 currentCasefilesTree none).filter (fun e => e.name ≠ group)
                ++ [⟨"040000", "tree", groupTreeHash, group⟩]
            let tr2 := tr1 ++ trM ++ [GitCmd.lsTree (lsTreeArg currentCasefilesTree none)]
            match mktreeSem env st1 rootTreeEntries with
            | (.error e, st2, trM2) => (.error e, st2, tr2 ++ trM2)
            | (.ok newTree, st2, trM2) =>
                match commitCasefilesTreeSem env st2 newTree parentCommits "Share casefile" with
                | (.error e, st3, trC) => (.error e, st3, tr2 ++ trM2 ++ trC)
                | (.ok newCommit, st3, trC) =>
                    match pushSem env st3 remote newCommit sharedCasefilesRef with
                    | (.error e, st4, trP) => (.error e, st4, tr2 ++ trM2 ++ trC ++ trP)
                    | (.ok _, st4, trP) =>
                        (.ok ⟨"casefile shared", newCommit⟩,
                         updateRefSem st4 sharedCasefilesRef newCommit,
                         tr2 ++ trM2 ++ trC ++ trP ++
                           [GitCmd.updateRef sharedCasefilesRef newCommit])

/-- Group key of a casefile path: `strrpart(p, '/', 2)[0]`
(src/lib/gitInteraction.js:366–369). -/
def groupOf (p : String) : String := (strrpart2 p '/').headD p

/-- The initial group map of `deleteCasefilePaths`: one key per distinct
group in first-appearance order, every value `null`. -/
def groupsInit (paths : List String) : List (String × Option String) :=
  paths.foldl
    (fun m p => if m.any (fun kv => kv.1 = groupOf p) then m else m ++ [(groupOf p, none)])
    []

/-- `Map.prototype.set`: update in place, or append a new key. -/
def mapSet (m : List (String × Option String)) (k : String) (v : Option String) :
    List (String × Option String) :=
  if m.any (fun kv => kv.1 = k) then m.map (fun kv => if kv.1 = k then (k, v) else kv)
  else m ++ [(k, v)]

/-- `Map.prototype.delete`. -/
def mapDelete (m : List (String × Option String)) (k : String) :
    List (String × Option String) :=
  m.filter (fun kv => kv.1 ≠ k)

/-- `Map.prototype.get` combined with `Map.prototype.has`: `none` when the
key is absent, `some v` (with `v` possibly `null`) when present. -/
def mapFind (m : List (String × Option String)) (k : String) : Option (Option String) :=
  (m.find? (fun kv => kv.1 = k)).map Prod.snd

/-- Accumulator of the per-group phase of `deleteCasefilePaths`: the group
map and the `foundEntriesToRemove` flag. -/
structure DelPhase where
  gmap : List (String × Option String)
  found : Bool
  deriving Repr, DecidableEq

/-- One group of the per-group phase of `deleteCasefilePaths`
(src/lib/gitInteraction.js:387–418): list the group subtree, filter out the
requested paths; when nothing was filtered the group is dropped from the
map, otherwise the group maps to a rebuilt tree (or `null` when emptied).
The `Promise.all` fan-out is modelled sequentially in key order (the groups
address disjoint subtrees); a rejection aborts the phase. -/
def delGroupStep (env : GitEnv) (tree : String) (paths : List String)
    (acc : Except GErr DelPhase × GitState × List GitCmd) (group : String) :
    Except GErr DelPhase × GitState × List GitCmd :=
  match acc with
  | (.error e, st, tr) => (.error e, st, tr)
  | (.ok ph, st, tr) =>
      let entries := lsTreeSem st tree (some group)
      let tr1 := tr ++ [GitCmd.lsTree (lsTreeArg tree (some group))]
      let remaining := entries.filter (fun e => (group ++ "/" ++ e.name) ∉ paths)
      if remaining.length < entries.length then
        if remaining.isEmpty then (.ok ⟨mapSet ph.gmap group none, true⟩, st, tr1)
        else
          match mktreeSem env st remaining with
          | (.ok h, st1, trM) => (.ok ⟨mapSet ph.gmap group (some h), true⟩, st1, tr1 ++ trM)
          | (.error e, st1, trM) => (.error e, st1, tr1 ++ trM)
      else (.ok ⟨mapDelete ph.gmap group, ph.found⟩, st, tr1)

/-- The whole per-group phase, iterating the keys snapshot
(`Array.from(groups.keys(), ...)`). -/
def delGroupPhase (env : GitEnv) (tree : String) (paths : List String)
    (groups0 : List (String × Option String)) (st : GitState) :
    Except GErr DelPhase × GitState × List GitCmd :=
  (groups0.map Prod.fst).foldl (delGroupStep env tree paths) (.ok ⟨groups0, false⟩, st, [])

/-- The new root entries of `deleteCasefilePaths`
(src/lib/gitInteraction.js:423–436): untouched groups flow through, emptied
groups disappear, rebuilt groups are replaced. -/
def delNewRoot (gmap : List (String × Option String)) (rootEs : List TreeEntry) :
    List TreeEntry :=
  rootEs.flatMap (fun entry =>
    match mapFind gmap entry.name with
    | none => [entry]
    | some none => []
    | some (some h) => [⟨"040000", "tree", h, entry.name⟩])

/-- Embedding of `deleteCasefilePaths` (src/lib/gitInteraction.js:364–453):
group the requested paths, stop when the ref does not resolve, run the
per-group phase, stop when nothing was removed, rebuild the root; an empty
new root makes the new commit the empty string `""` with no `mktree` and no
`commit-tree`; then push and update-ref. -/
def deleteCasefilePaths (env : GitEnv) (st0 : GitState) (remote : String)
    (paths : List String) : Except GErr Unit × GitState × List GitCmd :=
  let groups0 := groupsInit paths
  match revParseSem st0 sharedCasefilesRef with
  | .error _ => (.ok (), st0, [GitCmd.revParse sharedCasefilesRef])
  | .ok tree =>
      match delGroupPhase env tree paths groups0 st0 with
      | (.error e, st1, tr1) => (.error e, st1, GitCmd.revParse sharedCasefilesRef :: tr1)
      | (.ok ph, st1, tr1) =>
          if ph.found = false then (.ok (), st1, GitCmd.revParse sharedCasefilesRef :: tr1)
          else
            let newRoot := delNewRoot ph.gmap (lsTreeSem st1 tree none)
            let tr2 := (GitCmd.revParse sharedCasefilesRef :: tr1) ++
              [GitCmd.lsTree (lsTreeArg tree none)]
            match (if newRoot.isEmpty then (Except.ok "", st1, ([] : List GitCmd))
                   else
                     match mktreeSem env st1 newRoot with
                     | (.error e, st2, trM) => (.error e, st2, trM)
                     | (.ok th, st2, trM) =>
                         match commitCasefilesTreeSem env st2 th [tree] "Delete casefile(s)" with
                         | (.error e, st3, trC) => (.error e, st3, trM ++ trC)
                         | (.ok nc, st3, trC) => (.ok nc, st3, trM ++ trC)) with
            | (.error e, st2, trN) => (.error e, st2, tr2 ++ trN)
            | (.ok newCommit, st2, trN) =>
                match pushSem env st2 remote newCommit sharedCasefilesRef with
                | (.error e, st3, trP) => (.error e, st3, tr2 ++ trN ++ trP)
                | (.ok _, st3, trP) =>
                    (.ok (), updateRefSem st3 sharedCasefilesRef newCommit,
                     tr2 ++ trN ++ trP ++
                       [GitCmd.updateRef sharedCasefilesRef newCommit])

/-- Temporal trace property: every `update-ref` occurrence in the trace is
strictly preceded by a successful `push` of the same commit to the same ref
on the remote. -/
def pushPrecedesUpdateRef (env : GitEnv) (remote : String) (tr : List GitCmd) : Prop :=
  ∀ pre post r c, tr = pre ++ GitCmd.updateRef r c :: post →
    GitCmd.push remote c r ∈ pre ∧ env.pushOk remote c r = true

/-- A concrete content-addressing environment for the witnesses: hashes are
built from the hashed content, every push succeeds. -/
def envW : GitEnv where
  blobHash := fun s => "B" ++ s
  treeHash := fun l => "T" ++ String.join (l.map TreeEntry.hash)
  commitHash := fun t _ => "C" ++ t
  pushOk := fun _ _ _ => true

/-- Witness repository for the C1 no-op branch: the shared ref tip already
holds `g/i` with the hash of the casefile blob `Bjson`. -/
def stA : GitState where
  refs := [(sharedCasefilesRef, "tipA")]
  commits := [("tipA", "rtA")]
  trees := [("rtA", [⟨"040000", "tree", "gtA", "g"⟩]),
            ("gtA", [⟨"100644", "blob", "Bjson", "i"⟩])]

/-- Witness repository for the C1 share-then-share run: the shared ref tip
holds an empty group tree `g`. -/
def stB : GitState where
  refs := [(sharedCasefilesRef, "tip")]
  commits := [("tip", "rt")]
  trees := [("rt", [⟨"040000", "tree", "gt", "g"⟩]), ("gt", [])]

/-- Witness repository for the C4 scenario: the shared ref holds exactly one
casefile `a/b`. -/
def stD : GitState where
  refs := [(sharedCasefilesRef, "c0")]
  commits := [("c0", "rt")]
  trees := [("rt", [⟨"040000", "tree", "gt", "a"⟩]),
            ("gt", [⟨"100644", "blob", "h1", "b"⟩])]

end GitCasefile

namespace GitCasefile

/-- C7: For every invocation of the command runner, once the child has
exited: an `exit` callback, when supplied, is always called with the exit
code (zero or not) and its value is the resolved result; without `exit`, a
non-zero exit code rejects with `ChildProcessFailure` carrying the exit
code, independently of any `makeResult` or `result` (neither is used); on a
zero exit code, `makeResult` is called when given, otherwise the `result`
value is returned. -/
theorem stepExit_resolution {α : Type} :
    (∀ (ec : Int) (f : Int → α) (mk : Option (Unit → α)) (r : α),
        stepExit ec (some f) mk r = .ok (f ec)) ∧
    (∀ (ec : Int), ec ≠ 0 →
      ∀ (mk mk' : Option (Unit → α)) (r r' : α),
        stepExit ec none mk r = .error (.childProcessFailure ec) ∧
        stepExit ec none mk r = stepExit ec none mk' r') ∧
    (∀ (g : Unit → α) (r : α), stepExit (0 : Int) none (some g) r = .ok (g ())) ∧
    (∀ (r : α), stepExit (0 : Int) none none r = .ok r) := by
  refine ⟨fun ec f mk r => rfl, fun ec hec mk mk' r r' => ?_, fun g r => rfl, fun r => rfl⟩
  simp [stepExit, hec]

/-- Closed witness for `stepExit_resolution`: instantiation at concrete
callbacks and the non-zero exit code 2. -/
theorem stepExit_resolution_witness :
    stepExit (2 : Int) (none : Option (Int → Int)) (some fun _ => 7) 5 =
      .error (.childProcessFailure 2) :=
  ((stepExit_resolution.2.1 2 (by decide) (some fun _ => 7) none 5 0).1)

/-- C8: for every hunk header `@@ -S,L +T,M @@` parsed by `getHunks`: when
`L` is absent, the base range is `[S, S+1)`; when `L = 0` (pure insertion)
both `baseStart` and `baseEnd` are `S+1`; otherwise the base range is
`[S, S+L)`; and symmetrically for the current range with `T` and `M`. -/
theorem mkHunk_ranges (S T : Int) (L M : Option Int) :
    ((L = none → (mkHunk S L T M).baseStart = S ∧ (mkHunk S L T M).baseEnd = S + 1) ∧
     (L = some 0 → (mkHunk S L T M).baseStart = S + 1 ∧ (mkHunk S L T M).baseEnd = S + 1) ∧
     (∀ l : Int, l ≠ 0 → L = some l →
        (mkHunk S L T M).baseStart = S ∧ (mkHunk S L T M).baseEnd = S + l)) ∧
    ((M = none → (mkHunk S L T M).currentStart = T ∧ (mkHunk S L T M).currentEnd = T + 1) ∧
     (M = some 0 → (mkHunk S L T M).currentStart = T + 1 ∧ (mkHunk S L T M).currentEnd = T + 1) ∧
     (∀ m : Int, m ≠ 0 → M = some m →
        (mkHunk S L T M).currentStart = T ∧ (mkHunk S L T M).currentEnd = T + m)) := by
  constructor
  · refine ⟨fun hL => ?_, fun hL => ?_, fun l hl hL => ?_⟩
    · subst hL
      by_cases hM : M = some 0 <;> simp [mkHunk, hM]
    · subst hL
      by_cases hM : M = some 0 <;> simp [mkHunk, hM]
    · subst hL
      have : ¬ ((some l : Option Int) = some 0) := by simpa using hl
      by_cases hM : M = some 0 <;> simp [mkHunk, this, hM]
  · refine ⟨fun hM => ?_, fun hM => ?_, fun m hm hM => ?_⟩
    · subst hM
      by_cases hL : L = some 0 <;> simp [mkHunk, hL]
    · subst hM
      by_cases hL : L = some 0 <;> simp [mkHunk, hL]
    · subst hM
      have : ¬ ((some m : Option Int) = some 0) := by simpa using hm
      by_cases hL : L = some 0 <;> simp [mkHunk, this, hL]

/-- Closed witness for `mkHunk_ranges`: the pure-insertion header
`@@ -3,0 +7,2 @@` yields base range `[4,4)` and current range `[7,9)`. -/
theorem mkHunk_ranges_witness :
    (mkHunk 3 (some 0) 7 (some 2)).baseStart = 4 ∧
    (mkHunk 3 (some 0) 7 (some 2)).baseEnd = 4 ∧
    (mkHunk 3 (some 0) 7 (some 2)).currentStart = 7 ∧
    (mkHunk 3 (some 0) 7 (some 2)).currentEnd = 9 := by
  have h := (mkHunk_ranges 3 7 (some 0) (some 2)).1.2.1 rfl
  have h2 := (mkHunk_ranges 3 7 (some 0) (some 2)).2.2.2 2 (by decide) rfl
  exact ⟨h.1, h.2, h2.1, h2.2⟩

/-- C9: whenever the hunk walk of `computeCurrentLineRange` reaches a hunk
with `baseStart = baseEnd = line` (a pure-insertion hunk exactly at the
sought line), it returns `start = currentStart`,
`prime = floor((currentStart + currentEnd) / 2)` and `end = currentEnd`,
for any remaining hunks and any accumulated offset. -/
theorem computeRangeLoop_insertion_at_line (line off : Int) (hunk : Change)
    (rest : List Change) (hs : hunk.baseStart = line) (he : hunk.baseEnd = line) :
    computeRangeLoop line (hunk :: rest) off =
      { start := hunk.currentStart,
        prime := (hunk.currentStart + hunk.currentEnd).fdiv 2,
        «end» := hunk.currentEnd } := by
  subst hs
  simp [computeRangeLoop, he]

/-- Closed witness for `computeRangeLoop_insertion_at_line`: a
pure-insertion hunk at line 4 mapping to current lines `[6, 9)` gives the
range `start = 6`, `prime = 7`, `end = 9`. -/
theorem computeRangeLoop_insertion_at_line_witness :
    computeRangeLoop 4 [⟨4, 4, 6, 9⟩] 0 = { start := 6, prime := 7, «end» := 9 } := by
  have h := computeRangeLoop_insertion_at_line 4 0 ⟨4, 4, 6, 9⟩ [] rfl rfl
  simpa using h

/-- Helper: the reduce of `findLatestCommitParentWithPath` never raises the
best date above a bound dominating every successful lookup. -/
theorem bestParent_foldl_date_le (dates : String → Option Int) (d : Int) :
    ∀ (l : List String) (b : BestParent),
      (∀ r ∈ l, ∀ dr : Int, dates r = some dr → dr ≤ d) → b.date ≤ d →
      (l.foldl (bestParentStep dates) b).date ≤ d := by
  intro l
  induction l with
  | nil => intro b _ hb; simpa using hb
  | cons r rest ih =>
      intro b hl hb
      simp only [List.foldl_cons]
      refine ih _ (fun x hx => hl x (List.mem_cons_of_mem _ hx)) ?_
      unfold bestParentStep
      cases hr : dates r with
      | none => exact hb
      | some dr =>
          have hdr := hl r (List.mem_cons_self _ _) dr hr
          by_cases hgt : b.date > dr
          · simpa [hgt] using hb
          · simpa [hgt] using hdr

/-- Counterexample to C3 as stated: two parents whose last-change dates are
equal (both 5); the reduce returns the later (right-most) parent `p2`, not
the earlier `p1` that the claim predicts. -/
theorem findLatest_tie_counterexample :
    findLatestCommitParentWithPath
        (fun c => if c = "p1" then some 5 else if c = "p2" then some 5 else none)
        ["p1", "p2"] = some "p2" ∧
    findLatestCommitParentWithPath
        (fun c => if c = "p1" then some 5 else if c = "p2" then some 5 else none)
        ["p1", "p2"] ≠ some "p1" := by
  constructor
  · rfl
  · decide

/-- Helper: one reduce step on a parent whose date lookup succeeds. -/
theorem bestParentStep_some (dates : String → Option Int) (b : BestParent)
    (c : String) (d : Int) (h : dates c = some d) :
    bestParentStep dates b c = if b.date > d then b else ⟨d, some c⟩ := by
  unfold bestParentStep
  rw [h]

/-- C3 (amended): `findLatestCommitParentWithPath` reduces the parent list
left-to-right with a strict `>` comparison on the accumulated best date, so
when two parents have equal (non-negative, dominating) last-change dates,
the later (right-most) of them is the one returned. -/
theorem findLatest_equal_dates_later_wins (dates : String → Option Int)
    (pre : List String) (p q : String) (d : Int) (hd : 0 ≤ d)
    (hpre : ∀ r ∈ pre, ∀ dr : Int, dates r = some dr → dr ≤ d)
    (hp : dates p = some d) (hq : dates q = some d) :
    findLatestCommitParentWithPath dates (pre ++ [p, q]) = some q := by
  unfold findLatestCommitParentWithPath
  rw [List.foldl_append]
  have hble : (pre.foldl (bestParentStep dates) ⟨0, none⟩).date ≤ d :=
    bestParent_foldl_date_le dates d pre ⟨0, none⟩ hpre (by simpa using hd)
  simp only [List.foldl_cons, List.foldl_nil]
  rw [bestParentStep_some dates _ p d hp,
      if_neg (by omega : ¬ (pre.foldl (bestParentStep dates) ⟨0, none⟩).date > d),
      bestParentStep_some dates _ q d hq,
      if_neg (by dsimp only; omega : ¬ (BestParent.mk d (some p)).date > d)]

/-- Closed witness for `findLatest_equal_dates_later_wins`: parents `a`, `b`
both dated 3; the later parent `b` is returned. -/
theorem findLatest_equal_dates_later_wins_witness :
    findLatestCommitParentWithPath
        (fun c => if c = "a" then some 3 else if c = "b" then some 3 else none)
        ["a", "b"] = some "b" :=
  findLatest_equal_dates_later_wins
    (fun c => if c = "a" then some 3 else if c = "b" then some 3 else none)
    [] "a" "b" 3 (by decide) (by simp) (by decide) (by decide)

/-- Helper: when every date lookup fails, the reduce of
`findLatestCommitParentWithPath` keeps its accumulator unchanged. -/
theorem bestParent_foldl_all_none (dates : String → Option Int) :
    ∀ (l : List String) (b : BestParent), (∀ p ∈ l, dates p = none) →
      l.foldl (bestParentStep dates) b = b := by
  intro l
  induction l with
  | nil => intro b _; rfl
  | cons r rest ih =>
      intro b h
      simp only [List.foldl_cons]
      rw [show bestParentStep dates b r = b from by
        unfold bestParentStep; rw [h r (List.mem_cons_self _ _)]]
      exact ih b fun p hp => h p (List.mem_cons_of_mem _ hp)

/-- C10: when the committish has no parents, or the date lookup fails for
every parent, `findLatestCommitParentWithPath` resolves with `undefined`
(`none`; the initial best `{date: 0}` has no commit), and `getCasefile`
with `beforeCommit` then targets the blob `undefined:<path>` instead of
failing early. -/
theorem findLatest_undefined_blob_target (dates : String → Option Int)
    (parents : List String) (path : String)
    (h : parents = [] ∨ ∀ p ∈ parents, dates p = none) :
    findLatestCommitParentWithPath dates parents = none ∧
    getCasefileCatFileTarget dates parents path = "undefined:" ++ path := by
  have hnone : findLatestCommitParentWithPath dates parents = none := by
    cases h with
    | inl h => subst h; rfl
    | inr h =>
        unfold findLatestCommitParentWithPath
        rw [bestParent_foldl_all_none dates parents _ h]
  refine ⟨hnone, ?_⟩
  unfold getCasefileCatFileTarget
  rw [hnone]
  rfl

/-- Closed witness for `findLatest_undefined_blob_target`: no parents at
all, casefile path `g/i`. -/
theorem findLatest_undefined_blob_target_witness :
    findLatestCommitParentWithPath (fun _ => none) [] = none ∧
    getCasefileCatFileTarget (fun _ => none) [] "g/i" = "undefined:g/i" :=
  findLatest_undefined_blob_target (fun _ => none) [] "g/i" (Or.inl rfl)

/-- Helper: rows outside the edit buffer never have the mark text. -/
theorem rowHasText_out_of_range (buf : List String) (text : String) (j : Int)
    (hj : j < 1 ∨ (buf.length : Int) < j) : rowHasText buf text j = false := by
  unfold rowHasText lineText
  have : ¬ (1 ≤ j ∧ j ≤ (buf.length : Int)) := by omega
  simp [this]

/-- Helper: a row without the mark text is never reported. -/
theorem findTextInRow_eq_none (buf : List String) (filePath text : String)
    (j : Int) (h : rowHasText buf text j = false) :
    findTextInRow buf filePath text j = none := by
  unfold rowHasText at h
  unfold findTextInRow
  cases hl : lineText buf j with
  | none => rfl
  | some s =>
      rw [hl] at h
      dsimp only at h ⊢
      by_cases hs : s = ""
      · simp [hs]
      · rw [if_neg hs] at h ⊢
        cases hk : findSubstrIdx text.data s.data with
        | none => rfl
        | some k => rw [hk] at h; simp at h

/-- Helper: when exactly one row can be reported, a candidate scan reports
that row iff it is among the candidates. -/
theorem firstHit_unique (f : Int → Option FoundLocation) (i : Int)
    (r : FoundLocation) (hother : ∀ j : Int, j ≠ i → f j = none)
    (hi : f i = some r) :
    ∀ cands : List Int, firstHit f cands = if i ∈ cands then some r else none := by
  intro cands
  induction cands with
  | nil => simp [firstHit]
  | cons j rest ih =>
      by_cases hj : j = i
      · subst hj; simp [firstHit, hi]
      · have hne : i ≠ j := fun hc => hj hc.symm
        simp [firstHit, hother j hj, ih, List.mem_cons, hne]

/-- Helper: every row within `UNTRACKED_WINDOW_SIZE` of the starting line is
scanned by the no-tracking spiral. -/
theorem mem_spiralCandidates (line i : Int)
    (h : (i - line).natAbs ≤ UNTRACKED_WINDOW_SIZE) : i ∈ spiralCandidates line := by
  unfold spiralCandidates
  by_cases h0 : i = line
  · simp [h0]
  · refine List.mem_cons.mpr (Or.inr ?_)
    rw [List.mem_flatMap]
    refine ⟨(i - line).natAbs - 1, ?_, ?_⟩
    · rw [List.mem_range]
      unfold UNTRACKED_WINDOW_SIZE at h ⊢
      omega
    · simp only [List.mem_cons, List.mem_singleton]
      omega

/-- C2 (amended): if `markText` occurs exactly once in the buffer, on line
`i`, and `i` is within `UNTRACKED_WINDOW_SIZE` (15) lines of the recorded
starting line, then `currentLocation` resolves with
`(file, i, indexOf(markText) + 1)` for every peg — absent, or present with
any blame and diff-range outcomes — rather than rejecting with
`MarkNotFound`. -/
theorem currentLocation_unique_in_window (buf : List String)
    (filePath text s : String) (line i : Int) (k : Nat)
    (hline : lineText buf i = some s) (hs : s ≠ "")
    (hk : findSubstrIdx text.data s.data = some k)
    (huniq : ∀ j : Int, j ≠ i → rowHasText buf text j = false)
    (hnear : (i - line).natAbs ≤ UNTRACKED_WINDOW_SIZE)
    (peg : Option PegOracle) :
    currentLocation buf filePath text line peg =
      some ⟨filePath, i, (k : Int) + 1⟩ := by
  have hfi : findTextInRow buf filePath text i = some ⟨filePath, i, (k : Int) + 1⟩ := by
    unfold findTextInRow
    rw [hline]
    dsimp only
    rw [if_neg hs, hk]
  have hother : ∀ j : Int, j ≠ i → findTextInRow buf filePath text j = none :=
    fun j hj => findTextInRow_eq_none _ _ _ _ (huniq j hj)
  have hspiral :
      firstHit (findTextInRow buf filePath text) (spiralCandidates line) =
        some ⟨filePath, i, (k : Int) + 1⟩ := by
    rw [firstHit_unique _ i _ hother hfi, if_pos (mem_spiralCandidates line i hnear)]
  unfold currentLocation
  cases peg with
  | none => simpa using hspiral
  | some o =>
      dsimp only
      cases hb : o.blame with
      | ok j =>
          dsimp only
          by_cases hj : j = i
          · subst hj
            rw [hfi]
          · rw [hother j hj]
            dsimp only
            rw [firstHit_unique _ i _ hother hfi]
            by_cases hrad : i ∈ radiateCandidates o.range
            · rw [if_pos hrad]
            · rw [if_neg hrad]
              dsimp only
              exact hspiral
      | error e =>
          dsimp only
          rw [firstHit_unique _ i _ hother hfi]
          by_cases hrad : i ∈ radiateCandidates o.range
          · rw [if_pos hrad]
          · rw [if_neg hrad]
            dsimp only
            exact hspiral

/-- Closed witness for `currentLocation_unique_in_window`: text `q` occurs
exactly once, on line 2 (column 2) of a 3-line buffer; a peg whose blame
points at the wrong line 3 still resolves `(f, 2, 2)`. -/
theorem currentLocation_unique_in_window_witness :
    currentLocation ["aa", "xq", "c"] "f" "q" 1 (some ⟨.ok 3, ⟨1, 1, 2⟩⟩) =
      some ⟨"f", 2, 2⟩ := by
  have huniq : ∀ j : Int, j ≠ 2 → rowHasText ["aa", "xq", "c"] "q" j = false := by
    intro j hj
    by_cases hr : 1 ≤ j ∧ j ≤ 3
    · obtain ⟨h1, h2⟩ := hr
      interval_cases j
      · decide
      · exact absurd rfl hj
      · decide
    · refine rowHasText_out_of_range _ _ _ ?_
      simp only [List.length_cons, List.length_nil]
      omega
  exact currentLocation_unique_in_window ["aa", "xq", "c"] "f" "q" "xq" 1 2 1
    (by decide) (by decide) (by decide) huniq (by decide) (some ⟨.ok 3, ⟨1, 1, 2⟩⟩)

/-- Counterexample to C2 as stated: in `farBuffer` the text `penne` occurs
exactly once (line 17, as the bounded scan over all 17 lines shows and
rows outside the buffer trivially lack it), yet with starting line 1 and no
peg, `currentLocation` rejects with `MarkNotFound` (`none`): line 17 is 16
lines away, beyond `UNTRACKED_WINDOW_SIZE = 15`. -/
theorem currentLocation_window_counterexample :
    rowHasText farBuffer "penne" 17 = true ∧
    ((List.range 18).all fun n =>
      rowHasText farBuffer "penne" ((n : Int) + 1) == decide (n = 16)) = true ∧
    farBuffer.length = 17 ∧
    currentLocation farBuffer "f" "penne" 1 none = none := by
  refine ⟨by decide, by decide, by decide, by decide⟩

/-- Counterexample to C6 as stated: the third record starts with `-` and its
commit-info line `- bad` is malformed (it does not match
`- (\S+) (\S+ \S+ \S+)`), yet the operation does not fail with
`InvalidGitLogOutput`: the handler silently keeps the previous commit info,
so the path `p2` is attributed to commit `C1`. -/
theorem getDeletedCasefileRefs_malformed_counterexample :
    getDeletedCasefileRefs
        ["- C1 2022-01-01 07:08:09 -0500\nD", "p1", "- bad\nD", "p2"] 0 =
      .ok [⟨"C1", "2022-01-01 07:08:09 -0500", "p1"⟩,
           ⟨"C1", "2022-01-01 07:08:09 -0500", "p2"⟩] := by
  rfl

/-- C6 (amended): while parsing the NUL-separated git-log output, a record
in the `action` state that begins with `-` but contains no line terminator
(so no commit-info line can be peeled) fails with `InvalidGitLogOutput`
(a record whose first line is merely unmatched by the commit-info pattern
is instead processed silently, retaining the previous commit info); and
whenever the git log subprocess exits non-zero (the record handler having
raised no error), the operation resolves with the empty list. -/
theorem getDeletedCasefileRefs_error_handling :
    (∀ (st : DCState) (rec : String), st.parseState = .action →
        rec.data.head? = some '-' → findLineEnd rec.data 0 = none →
        dcStep st rec = .error .invalidGitLogOutput) ∧
    (∀ (recs : List String) (out : List DeletedCasefileRef) (ec : Int),
        dcRun recs = .ok out → ec ≠ 0 →
        getDeletedCasefileRefs recs ec = .ok []) := by
  constructor
  · intro st rec hps hhead hle
    have hne : ¬ rec = "" := by
      intro h
      subst h
      simp at hhead
    unfold dcStep
    rw [hps]
    dsimp only
    rw [if_neg hne, if_pos hhead, hle]
  · intro recs out ec hrun hec
    unfold getDeletedCasefileRefs
    rw [hrun]
    simp [hec]

/-- Closed witness for `getDeletedCasefileRefs_error_handling`: the record
`-x` (no line terminator) fails from the initial state, and exit code 128
with an empty parse yields the empty list. -/
theorem getDeletedCasefileRefs_error_handling_witness :
    dcStep dcInitial "-x" = .error .invalidGitLogOutput ∧
    getDeletedCasefileRefs [] 128 = .ok [] :=
  ⟨getDeletedCasefileRefs_error_handling.1 dcInitial "-x" rfl (by decide) (by decide),
   getDeletedCasefileRefs_error_handling.2 [] [] 128 rfl (by decide)⟩

/-- Helper: when the group tree (with duplicate-free names, as in any git
tree) holds an entry named `inst` whose hash is already the casefile hash,
the upsert is the no-op branch. -/
theorem upsertEntry_none_of_mem (inst h : String) (newE : TreeEntry) :
    ∀ l : List TreeEntry, (l.map TreeEntry.name).Nodup →
      (∃ e ∈ l, e.name = inst ∧ e.hash = h) →
      upsertEntry inst h newE l = none := by
  intro l
  induction l with
  | nil => intro _ hex; simp at hex
  | cons a rest ih =>
      intro hnd hex
      obtain ⟨e, hmem, hname, hhash⟩ := hex
      rw [List.map_cons, List.nodup_cons] at hnd
      rcases List.mem_cons.mp hmem with rfl | hmem'
      · unfold upsertEntry
        rw [if_pos hname, if_pos hhash]
      · have hane : ¬ a.name = inst := by
          intro hae
          apply hnd.1
          rw [hae, ← hname]
          exact List.mem_map_of_mem _ hmem'
        unfold upsertEntry
        rw [if_neg hane, ih hnd.2 ⟨e, hmem', hname, hhash⟩]
        rfl

/-- Helper: applying the upsert again to its own output is the no-op
branch (the inserted entry is found first and already carries the hash). -/
theorem upsertEntry_upsertEntry (inst h : String) (newE : TreeEntry)
    (hn : newE.name = inst) (hh : newE.hash = h) :
    ∀ l l' : List TreeEntry, upsertEntry inst h newE l = some l' →
      upsertEntry inst h newE l' = none := by
  intro l
  induction l with
  | nil =>
      intro l' hl'
      unfold upsertEntry at hl'
      injection hl' with hl'
      subst hl'
      unfold upsertEntry
      rw [if_pos hn, if_pos hh]
  | cons a rest ih =>
      intro l' hl'
      unfold upsertEntry at hl'
      by_cases ha : a.name = inst
      · rw [if_pos ha] at hl'
        by_cases hah : a.hash = h
        · rw [if_pos hah] at hl'
          exact absurd hl' (by simp)
        · rw [if_neg hah] at hl'
          injection hl' with hl'
          subst hl'
          unfold upsertEntry
          rw [if_pos hn, if_pos hh]
      · rw [if_neg ha] at hl'
        cases hrec : upsertEntry inst h newE rest with
        | none =>
            rw [hrec] at hl'
            exact absurd hl' (by simp)
        | some rest' =>
            rw [hrec] at hl'
            simp only [Option.map] at hl'
            injection hl' with hl'
            subst hl'
            unfold upsertEntry
            rw [if_neg ha, ih rest' hrec]
            rfl

/-- Helper: a resolvable, non-empty ref makes `revParse` succeed. -/
theorem revParseSem_ok (st : GitState) (ref c : String)
    (h : alookup st.refs ref = some c) (hc : c ≠ "") :
    revParseSem st ref = .ok c := by
  unfold revParseSem
  rw [h]
  dsimp only
  rw [if_neg hc]

/-- Helper: `mktree` on clean entry names with a well-formed resulting hash
writes the tree and returns its hash. -/
theorem mktreeSem_ok (env : GitEnv) (st : GitState) (entries : List TreeEntry)
    (hcl : entries.any (fun e => e.name.data.contains '/') = false)
    (hok : ¬ (env.treeHash entries = "" ∨ env.treeHash entries = gitEmptyTree)) :
    mktreeSem env st entries =
      (.ok (env.treeHash entries),
       { st with trees := (env.treeHash entries, entries) :: st.trees },
       [GitCmd.mktree entries]) := by
  unfold mktreeSem
  rw [if_neg (by rw [hcl]; simp)]
  dsimp only
  rw [if_neg hok]

/-- Helper: `commit-tree` with a well-formed resulting hash records the
commit and returns its hash. -/
theorem commitSem_ok (env : GitEnv) (st : GitState) (tree : String)
    (parents : List String) (message : String)
    (h : env.commitHash tree parents ≠ "") :
    commitCasefilesTreeSem env st tree parents message =
      (.ok (env.commitHash tree parents),
       { st with commits := (env.commitHash tree parents, tree) :: st.commits },
       [GitCmd.commitTree tree parents message]) := by
  unfold commitCasefilesTreeSem
  dsimp only
  rw [if_neg h]

/-- Helper: a succeeding push resolves and issues exactly its command. -/
theorem pushSem_ok (env : GitEnv) (st : GitState) (remote source dest : String)
    (h : env.pushOk remote source dest = true) :
    pushSem env st remote source dest = (.ok (), st, [GitCmd.push remote source dest]) := by
  unfold pushSem
  rw [if_pos h]

/-- Helper: the no-op branch of `shareCasefile`: when the ref resolves and
the upsert on the listed group entries hits the identical-hash case, the
method returns the no-changes result, leaves the state untouched, and
issues exactly rev-parse, hash-object and one ls-tree. -/
theorem shareCasefile_noop_of_upsert_none (env : GitEnv) (st : GitState)
    (remote group inst content tip : String)
    (hTip : alookup st.refs sharedCasefilesRef = some tip) (hTipNe : tip ≠ "")
    (hHash : env.blobHash content ≠ "")
    (hUp : upsertEntry inst (env.blobHash content)
        ⟨"100644", "blob", env.blobHash content, inst⟩
        (lsTreeSem st tip (some group)) = none) :
    shareCasefile env st remote group inst content =
      (.ok ⟨"no changes to share", tip⟩, st,
       [GitCmd.revParse sharedCasefilesRef, GitCmd.hashObject content,
        GitCmd.lsTree (lsTreeArg tip (some group))]) := by
  unfold shareCasefile
  rw [revParseSem_ok st sharedCasefilesRef tip hTip hTipNe]
  dsimp only
  rw [if_neg hHash, hUp]
  rfl

/-- Helper: a run of `shareCasefile` through the full pipeline (entry new
or changed, all git results well-formed, push succeeding): the resulting
state, result and exact command trace. -/
theorem shareCasefile_success_run (env : GitEnv) (st : GitState)
    (remote group inst content tip : String) (ge1 re0 : List TreeEntry)
    (gh rth rh c : String)
    (hTip : alookup st.refs sharedCasefilesRef = some tip)
    (hTipNe : tip ≠ "") (hTipNet : tip ≠ gitEmptyTree)
    (hHash : env.blobHash content ≠ "")
    (hUp : upsertEntry inst (env.blobHash content)
        ⟨"100644", "blob", env.blobHash content, inst⟩
        (lsTreeSem st tip (some group)) = some ge1)
    (hCleanG : ge1.any (fun e => e.name.data.contains '/') = false)
    (hGH : env.treeHash ge1 = gh)
    (hGHok : ¬ (gh = "" ∨ gh = gitEmptyTree))
    (hRT : alookup st.commits tip = some rth)
    (hRE : alookup st.trees rth = some re0)
    (hGHrt : gh ≠ rth)
    (hCleanR : (re0.filter (fun e => e.name ≠ group) ++
        [(⟨"040000", "tree", gh, group⟩ : TreeEntry)]).any (fun e => e.name.data.contains '/') = false)
    (hRH : env.treeHash (re0.filter (fun e => e.name ≠ group) ++
        [(⟨"040000", "tree", gh, group⟩ : TreeEntry)]) = rh)
    (hRHok : ¬ (rh = "" ∨ rh = gitEmptyTree))
    (hC : env.commitHash rh [tip] = c) (hCne : c ≠ "")
    (hPush : env.pushOk remote c sharedCasefilesRef = true) :
    shareCasefile env st remote group inst content =
      (.ok ⟨"casefile shared", c⟩,
       ⟨(sharedCasefilesRef, c) :: st.refs, (c, rh) :: st.commits,
        (rh, re0.filter (fun e => e.name ≠ group) ++
          [(⟨"040000", "tree", gh, group⟩ : TreeEntry)]) :: (gh, ge1) :: st.trees⟩,
       [GitCmd.revParse sharedCasefilesRef, GitCmd.hashObject content,
        GitCmd.lsTree (lsTreeArg tip (some group)),
        GitCmd.mktree ge1,
        GitCmd.lsTree (lsTreeArg tip none),
        GitCmd.mktree (re0.filter (fun e => e.name ≠ group) ++
          [(⟨"040000", "tree", gh, group⟩ : TreeEntry)]),
        GitCmd.commitTree rh [tip] "Share casefile",
        GitCmd.push remote c sharedCasefilesRef,
        GitCmd.updateRef sharedCasefilesRef c]) := by
  unfold shareCasefile
  rw [revParseSem_ok st sharedCasefilesRef tip hTip hTipNe]
  dsimp only
  rw [if_neg hHash, hUp]
  dsimp only
  rw [mktreeSem_ok env st ge1 hCleanG (by rw [hGH]; exact hGHok)]
  dsimp only
  rw [hGH]
  have hls : lsTreeSem { st with trees := (gh, ge1) :: st.trees } tip none = re0 := by
    unfold lsTreeSem rootEntries
    rw [if_neg hTipNet]
    dsimp only
    rw [hRT]
    dsimp only
    unfold alookup
    dsimp only
    rw [if_neg hGHrt, hRE]
  rw [hls]
  rw [mktreeSem_ok env _ _ hCleanR (by rw [hRH]; exact hRHok)]
  dsimp only
  rw [hRH]
  rw [commitSem_ok env _ rh [tip] "Share casefile" (by rw [hC]; exact hCne)]
  dsimp only
  rw [hC]
  rw [pushSem_ok env _ remote c sharedCasefilesRef hPush]
  rfl

/-- Helper: listing the shared group right after a successful share returns
exactly the group entries written by that share. -/
theorem lsTreeSem_after_share (stc : List (String × String))
    (sts : List (String × List TreeEntry)) (refs' : List (String × String))
    (c rh gh group : String) (re0 ge1 : List TreeEntry)
    (hSplit : splitSlash group = [group]) (hCnet : c ≠ gitEmptyTree)
    (hne : rh ≠ gh) :
    lsTreeSem
      ⟨refs', (c, rh) :: stc,
       (rh, re0.filter (fun e => e.name ≠ group) ++
         [(⟨"040000", "tree", gh, group⟩ : TreeEntry)]) :: (gh, ge1) :: sts⟩
      c (some group) = ge1 := by
  have hfind : (re0.filter (fun e => e.name ≠ group) ++
      [(⟨"040000", "tree", gh, group⟩ : TreeEntry)]).find?
        (fun e => e.name = group) = some ⟨"040000", "tree", gh, group⟩ := by
    rw [List.find?_append]
    have h1 : (re0.filter (fun e => e.name ≠ group)).find?
        (fun e => e.name = group) = none := by
      rw [List.find?_eq_none]
      intro x hx
      simp only [List.mem_filter] at hx
      simpa using hx.2
    rw [h1]
    simp [List.find?]
  unfold lsTreeSem rootEntries
  rw [if_neg hCnet]
  dsimp only
  unfold alookup
  dsimp only
  rw [if_pos rfl]
  dsimp only
  unfold alookup
  dsimp only
  rw [if_pos rfl]
  dsimp only
  rw [hSplit]
  unfold walkPath
  rw [hfind]
  dsimp only
  unfold alookup
  dsimp only
  rw [if_neg hne]
  unfold alookup
  dsimp only
  rw [if_pos rfl]
  rfl

/-- C1: sharing is idempotent.  (i) When the group tree of the current
shared-casefiles ref tip already contains an entry named `<instance>` whose
hash equals the hash of the casefile blob `JSON.stringify({bookmarks})`,
`shareCasefile` resolves with `{message: "no changes to share", commit:
<current tip>}`, leaves the repository untouched, and performs no mktree,
no commit-tree, no push and no update-ref.  (ii) In particular, after a
successful full share, calling `shareCasefile` again with the identical
bookmarks is exactly such a no-op, returning the commit created by the
first call. -/
theorem shareCasefile_idempotent :
    (∀ (env : GitEnv) (st : GitState) (remote group inst content tip : String),
        alookup st.refs sharedCasefilesRef = some tip → tip ≠ "" →
        env.blobHash content ≠ "" →
        ((lsTreeSem st tip (some group)).map TreeEntry.name).Nodup →
        (∃ e ∈ lsTreeSem st tip (some group),
            e.name = inst ∧ e.hash = env.blobHash content) →
        shareCasefile env st remote group inst content =
          (.ok ⟨"no changes to share", tip⟩, st,
           [GitCmd.revParse sharedCasefilesRef, GitCmd.hashObject content,
            GitCmd.lsTree (lsTreeArg tip (some group))]) ∧
        ∀ cmd ∈ (shareCasefile env st remote group inst content).2.2,
          cmd.isMktree = false ∧ cmd.isCommitTree = false ∧
          cmd.isPush = false ∧ cmd.isUpdateRef = false) ∧
    (∀ (env : GitEnv) (st : GitState) (remote group inst content tip : String)
        (ge1 re0 : List TreeEntry) (gh rth rh c : String),
        alookup st.refs sharedCasefilesRef = some tip → tip ≠ "" →
        tip ≠ gitEmptyTree → env.blobHash content ≠ "" →
        upsertEntry inst (env.blobHash content)
            ⟨"100644", "blob", env.blobHash content, inst⟩
            (lsTreeSem st tip (some group)) = some ge1 →
        ge1.any (fun e => e.name.data.contains '/') = false →
        env.treeHash ge1 = gh → ¬ (gh = "" ∨ gh = gitEmptyTree) →
        alookup st.commits tip = some rth →
        alookup st.trees rth = some re0 → gh ≠ rth →
        (re0.filter (fun e => e.name ≠ group) ++
            [(⟨"040000", "tree", gh, group⟩ : TreeEntry)]).any
            (fun e => e.name.data.contains '/') = false →
        env.treeHash (re0.filter (fun e => e.name ≠ group) ++
            [(⟨"040000", "tree", gh, group⟩ : TreeEntry)]) = rh →
        ¬ (rh = "" ∨ rh = gitEmptyTree) → rh ≠ gh →
        env.commitHash rh [tip] = c → c ≠ "" → c ≠ gitEmptyTree →
        env.pushOk remote c sharedCasefilesRef = true →
        splitSlash group = [group] →
        (shareCasefile env st remote group inst content).1 =
          .ok ⟨"casefile shared", c⟩ ∧
        shareCasefile env (shareCasefile env st remote group inst content).2.1
            remote group inst content =
          (.ok ⟨"no changes to share", c⟩,
           (shareCasefile env st remote group inst content).2.1,
           [GitCmd.revParse sharedCasefilesRef, GitCmd.hashObject content,
            GitCmd.lsTree (lsTreeArg c (some group))])) := by
  constructor
  · intro env st remote group inst content tip hTip hTipNe hHash hNodup hMem
    have heq := shareCasefile_noop_of_upsert_none env st remote group inst content tip
      hTip hTipNe hHash
      (upsertEntry_none_of_mem inst (env.blobHash content) _ _ hNodup hMem)
    refine ⟨heq, ?_⟩
    intro cmd hcmd
    rw [heq] at hcmd
    simp only [List.mem_cons, List.not_mem_nil, or_false] at hcmd
    rcases hcmd with rfl | rfl | rfl <;> exact ⟨rfl, rfl, rfl, rfl⟩
  · intro env st remote group inst content tip ge1 re0 gh rth rh c
      hTip hTipNe hTipNet hHash hUp hCleanG hGH hGHok hRT hRE hGHrt
      hCleanR hRH hRHok hRHgh hC hCne hCnet hPush hSplit
    have hrun := shareCasefile_success_run env st remote group inst content tip
      ge1 re0 gh rth rh c hTip hTipNe hTipNet hHash hUp hCleanG hGH hGHok
      hRT hRE hGHrt hCleanR hRH hRHok hC hCne hPush
    constructor
    · rw [hrun]
    · rw [hrun]
      refine shareCasefile_noop_of_upsert_none env _ remote group inst content c
        ?_ hCne hHash ?_
      · unfold alookup
        dsimp only
        rw [if_pos rfl]
      · rw [lsTreeSem_after_share st.commits st.trees _ c rh gh group re0 ge1
          hSplit hCnet hRHgh]
        exact upsertEntry_upsertEntry inst (env.blobHash content) _ rfl rfl _ ge1 hUp

/-- Closed witness for `shareCasefile_idempotent`: (i) the no-op branch on a
repository already holding `g/i` with the casefile hash; (ii) a fresh share
into an empty group followed by an identical share, the second call being
the no-op. -/
theorem shareCasefile_idempotent_witness :
    (shareCasefile envW stA "origin" "g" "i" "json" =
      (.ok ⟨"no changes to share", "tipA"⟩, stA,
       [GitCmd.revParse sharedCasefilesRef, GitCmd.hashObject "json",
        GitCmd.lsTree (lsTreeArg "tipA" (some "g"))])) ∧
    (shareCasefile envW stB "origin" "g" "i" "json").1 =
      .ok ⟨"casefile shared", "CTTBjson"⟩ ∧
    shareCasefile envW (shareCasefile envW stB "origin" "g" "i" "json").2.1
        "origin" "g" "i" "json" =
      (.ok ⟨"no changes to share", "CTTBjson"⟩,
       (shareCasefile envW stB "origin" "g" "i" "json").2.1,
       [GitCmd.revParse sharedCasefilesRef, GitCmd.hashObject "json",
        GitCmd.lsTree (lsTreeArg "CTTBjson" (some "g"))]) := by
  refine ⟨?_, ?_⟩
  · exact (shareCasefile_idempotent.1 envW stA "origin" "g" "i" "json" "tipA"
      rfl (by decide) (by decide) (by decide) (by decide)).1
  · exact shareCasefile_idempotent.2 envW stB "origin" "g" "i" "json" "tip"
      [⟨"100644", "blob", "Bjson", "i"⟩] [⟨"040000", "tree", "gt", "g"⟩]
      "TBjson" "rt" "TTBjson" "CTTBjson"
      rfl (by decide) (by decide) (by decide) rfl (by decide) rfl (by decide)
      rfl rfl (by decide) (by decide) rfl (by decide) (by decide) rfl
      (by decide) (by decide) rfl rfl

/-- Helper: the only command `mktree` ever issues is its own `git mktree`. -/
theorem mktreeSem_trace (env : GitEnv) (st : GitState) (entries : List TreeEntry) :
    ∀ cmd ∈ (mktreeSem env st entries).2.2, cmd = GitCmd.mktree entries := by
  unfold mktreeSem
  split
  · intro cmd hcmd
    simp at hcmd
  · dsimp only
    split
    · intro cmd hcmd
      simpa using hcmd
    · intro cmd hcmd
      simpa using hcmd

/-- Helper: one step of the per-group phase of `deleteCasefilePaths` only
adds `ls-tree` and `mktree` commands to the trace. -/
theorem delGroupStep_safe (env : GitEnv) (tree : String) (paths : List String)
    (acc : Except GErr DelPhase × GitState × List GitCmd) (g : String)
    (hacc : ∀ cmd ∈ acc.2.2, cmd.isCommitTree = false ∧ cmd.isPush = false ∧
      cmd.isUpdateRef = false) :
    ∀ cmd ∈ (delGroupStep env tree paths acc g).2.2,
      cmd.isCommitTree = false ∧ cmd.isPush = false ∧ cmd.isUpdateRef = false := by
  obtain ⟨res, stAcc, trAcc⟩ := acc
  cases res with
  | error e => exact hacc
  | ok ph =>
      unfold delGroupStep
      dsimp only
      split
      · split
        · intro cmd hcmd
          dsimp only at hcmd
          rcases List.mem_append.mp hcmd with h | h
          · exact hacc cmd h
          · simp only [List.mem_singleton] at h
            subst h
            exact ⟨rfl, rfl, rfl⟩
        · split
          all_goals
            rename_i hmk
            intro cmd hcmd
            dsimp only at hcmd
            rcases List.mem_append.mp hcmd with h | h
            · rcases List.mem_append.mp h with h2 | h2
              · exact hacc cmd h2
              · simp only [List.mem_singleton] at h2
                subst h2
                exact ⟨rfl, rfl, rfl⟩
            · have hcm := mktreeSem_trace env stAcc _ cmd (by rw [hmk]; exact h)
              subst hcm
              exact ⟨rfl, rfl, rfl⟩
      · intro cmd hcmd
        dsimp only at hcmd
        rcases List.mem_append.mp hcmd with h | h
        · exact hacc cmd h
        · simp only [List.mem_singleton] at h
          subst h
          exact ⟨rfl, rfl, rfl⟩

/-- Helper: the whole per-group phase of `deleteCasefilePaths` only adds
`ls-tree` and `mktree` commands to the trace. -/
theorem delGroupPhase_safe (env : GitEnv) (tree : String) (paths : List String) :
    ∀ (ks : List String) (acc : Except GErr DelPhase × GitState × List GitCmd),
      (∀ cmd ∈ acc.2.2, cmd.isCommitTree = false ∧ cmd.isPush = false ∧
        cmd.isUpdateRef = false) →
      ∀ cmd ∈ (ks.foldl (delGroupStep env tree paths) acc).2.2,
        cmd.isCommitTree = false ∧ cmd.isPush = false ∧ cmd.isUpdateRef = false := by
  intro ks
  induction ks with
  | nil => intro acc hacc; exact hacc
  | cons g rest ih =>
      intro acc hacc
      simp only [List.foldl_cons]
      exact ih _ (delGroupStep_safe env tree paths acc g hacc)

/-- C4: when `deleteCasefilePaths` filters out every entry of every group so
that the new root tree would have no entries, no commit is created: the
"new commit" is the empty string `""`, the push spec sent to the remote is
`{source: "", dest: refs/collaboration/shared-casefiles}` (deleting the
remote ref), and `update-ref` is then invoked on the shared-casefiles ref
with the empty string. -/
theorem deleteCasefilePaths_empty_root (env : GitEnv) (st0 : GitState)
    (remote : String) (paths : List String) (tree : String)
    (gm : List (String × Option String)) (st1 : GitState) (tr1 : List GitCmd)
    (hTip : alookup st0.refs sharedCasefilesRef = some tree) (hTreeNe : tree ≠ "")
    (hGP : delGroupPhase env tree paths (groupsInit paths) st0 =
      (.ok ⟨gm, true⟩, st1, tr1))
    (hNR : delNewRoot gm (lsTreeSem st1 tree none) = [])
    (hPush : env.pushOk remote "" sharedCasefilesRef = true) :
    deleteCasefilePaths env st0 remote paths =
      (.ok (), updateRefSem st1 sharedCasefilesRef "",
       (GitCmd.revParse sharedCasefilesRef :: tr1) ++
         [GitCmd.lsTree (lsTreeArg tree none),
          GitCmd.push remote "" sharedCasefilesRef,
          GitCmd.updateRef sharedCasefilesRef ""]) ∧
    ∀ cmd ∈ (deleteCasefilePaths env st0 remote paths).2.2,
      cmd.isCommitTree = false := by
  have heq : deleteCasefilePaths env st0 remote paths =
      (.ok (), updateRefSem st1 sharedCasefilesRef "",
       (GitCmd.revParse sharedCasefilesRef :: tr1) ++
         [GitCmd.lsTree (lsTreeArg tree none),
          GitCmd.push remote "" sharedCasefilesRef,
          GitCmd.updateRef sharedCasefilesRef ""]) := by
    unfold deleteCasefilePaths
    rw [revParseSem_ok st0 sharedCasefilesRef tree hTip hTreeNe]
    dsimp only
    rw [hGP]
    dsimp only
    rw [if_neg (by simp)]
    rw [hNR]
    simp only [List.isEmpty_nil, if_true]
    rw [pushSem_ok env st1 remote "" sharedCasefilesRef hPush]
    simp [List.append_assoc]
  refine ⟨heq, ?_⟩
  intro cmd hcmd
  rw [heq] at hcmd
  dsimp only at hcmd
  rcases List.mem_append.mp hcmd with h | h
  · rcases List.mem_cons.mp h with rfl | h2
    · rfl
    · have hsafe := delGroupPhase_safe env tree paths
        ((groupsInit paths).map Prod.fst)
        (.ok ⟨groupsInit paths, false⟩, st0, []) (by simp) cmd
        (by
          show cmd ∈ (delGroupPhase env tree paths (groupsInit paths) st0).2.2
          rw [hGP]
          exact h2)
      exact hsafe.1
  · simp only [List.mem_cons, List.not_mem_nil, or_false] at h
    rcases h with rfl | rfl | rfl <;> rfl

/-- Closed witness for `deleteCasefilePaths_empty_root`: deleting the sole
casefile `a/b` deletes the remote ref (`push ""`) and sets the local ref to
the empty string, with no `commit-tree`. -/
theorem deleteCasefilePaths_empty_root_witness :
    deleteCasefilePaths envW stD "origin" ["a/b"] =
      (.ok (), updateRefSem stD sharedCasefilesRef "",
       [GitCmd.revParse sharedCasefilesRef,
        GitCmd.lsTree (lsTreeArg "c0" (some "a")),
        GitCmd.lsTree (lsTreeArg "c0" none),
        GitCmd.push "origin" "" sharedCasefilesRef,
        GitCmd.updateRef sharedCasefilesRef ""]) :=
  (deleteCasefilePaths_empty_root envW stD "origin" ["a/b"] "c0"
    [("a", none)] stD [GitCmd.lsTree (lsTreeArg "c0" (some "a"))]
    rfl (by decide) rfl rfl rfl).1

/-- Helper: nothing is in the empty trace. -/
theorem trace_safe_nil (P : GitCmd → Prop) : ∀ cmd ∈ ([] : List GitCmd), P cmd := by
  intro cmd hcmd
  simp at hcmd

/-- Helper: extending a safe trace with a safe command. -/
theorem trace_safe_cons (P : GitCmd → Prop) (c : GitCmd) (l : List GitCmd)
    (hc : P c) (hl : ∀ cmd ∈ l, P cmd) : ∀ cmd ∈ c :: l, P cmd := by
  intro cmd hcmd
  rcases List.mem_cons.mp hcmd with rfl | h
  · exact hc
  · exact hl cmd h

/-- Helper: concatenating safe traces. -/
theorem trace_safe_append {P : GitCmd → Prop} {l1 l2 : List GitCmd}
    (h1 : ∀ cmd ∈ l1, P cmd) (h2 : ∀ cmd ∈ l2, P cmd) :
    ∀ cmd ∈ l1 ++ l2, P cmd := by
  intro cmd hcmd
  rcases List.mem_append.mp hcmd with h | h
  · exact h1 cmd h
  · exact h2 cmd h

/-- Helper: a trace whose commands are all one safe command is safe. -/
theorem trace_safe_of_all_eq {P : GitCmd → Prop} {l : List GitCmd} {c0 : GitCmd}
    (h : ∀ cmd ∈ l, cmd = c0) (hc : P c0) : ∀ cmd ∈ l, P cmd := by
  intro cmd hcmd
  rw [h cmd hcmd]
  exact hc

/-- Helper: a trace without update-ref commands. -/
theorem no_updateRef_of_safe (tr : List GitCmd)
    (h : ∀ cmd ∈ tr, cmd.isUpdateRef = false) :
    ∀ r c, GitCmd.updateRef r c ∉ tr := by
  intro r c hc
  have hfalse := h _ hc
  simp [GitCmd.isUpdateRef] at hfalse

/-- Helper: a trace with no update-ref trivially satisfies the ordering
property. -/
theorem pushPrecedes_of_no_updateRef (env : GitEnv) (remote : String)
    (tr : List GitCmd) (h : ∀ r c, GitCmd.updateRef r c ∉ tr) :
    pushPrecedesUpdateRef env remote tr := by
  intro pre post r c htr
  refine absurd ?_ (h r c)
  rw [htr]
  simp

/-- Helper: decomposing a list `L ++ [u]` at an occurrence of `u` absent
from `L` forces the decomposition to be at the final element. -/
theorem append_singleton_decomp {α : Type} (u : α) :
    ∀ L pre post : List α, pre ++ u :: post = L ++ [u] → u ∉ L →
      pre = L ∧ post = [] := by
  intro L
  induction L with
  | nil =>
      intro pre post h _
      cases pre with
      | nil =>
          simp only [List.nil_append] at h
          injection h with h1 h2
          exact ⟨rfl, h2⟩
      | cons p pre2 =>
          simp only [List.cons_append, List.nil_append] at h
          injection h with h1 h2
          exact absurd h2 (by simp)
  | cons x L2 ih =>
      intro pre post h hu
      cases pre with
      | nil =>
          simp only [List.nil_append, List.cons_append] at h
          injection h with h1 h2
          exact absurd (by rw [h1]; exact List.mem_cons_self x L2) hu
      | cons p pre2 =>
          simp only [List.cons_append] at h
          injection h with h1 h2
          subst h1
          have hih := ih pre2 post h2 fun hc => hu (List.mem_cons_of_mem _ hc)
          exact ⟨by rw [hih.1], hih.2⟩

/-- Helper: a trace of the form `L ++ [update-ref]`, where `L` has no
update-ref but contains the matching successful push, satisfies the
ordering property. -/
theorem pushPrecedes_last (env : GitEnv) (remote : String) (L : List GitCmd)
    (r0 c0 : String) (hL : ∀ r c, GitCmd.updateRef r c ∉ L)
    (hp : GitCmd.push remote c0 r0 ∈ L)
    (hok : env.pushOk remote c0 r0 = true) :
    pushPrecedesUpdateRef env remote (L ++ [GitCmd.updateRef r0 c0]) := by
  intro pre post r c htr
  have hmem : GitCmd.updateRef r c ∈ L ++ [GitCmd.updateRef r0 c0] := by
    rw [htr]
    simp
  have heq : r = r0 ∧ c = c0 := by
    rcases List.mem_append.mp hmem with h | h
    · exact absurd h (hL r c)
    · simp only [List.mem_singleton] at h
      injection h with h1 h2
      exact ⟨h1, h2⟩
  obtain ⟨rfl, rfl⟩ := heq
  obtain ⟨hpre, -⟩ :=
    append_singleton_decomp (GitCmd.updateRef r c) L pre post htr.symm (hL r c)
  subst hpre
  exact ⟨hp, hok⟩

/-- Helper: `commit-tree` issues exactly its own command. -/
theorem commitSem_trace (env : GitEnv) (st : GitState) (tree : String)
    (parents : List String) (message : String) :
    ∀ cmd ∈ (commitCasefilesTreeSem env st tree parents message).2.2,
      cmd = GitCmd.commitTree tree parents message := by
  unfold commitCasefilesTreeSem
  dsimp only
  split
  · intro cmd hcmd
    simpa using hcmd
  · intro cmd hcmd
    simpa using hcmd

/-- Helper: the trace of `push` is exactly its own command. -/
theorem pushSem_trace (env : GitEnv) (st : GitState) (remote source dest : String) :
    (pushSem env st remote source dest).2.2 = [GitCmd.push remote source dest] := by
  unfold pushSem
  split <;> rfl

/-- Helper: a resolving `push` means the push spec succeeded. -/
theorem pushSem_ok_inv (env : GitEnv) (st : GitState) (remote source dest : String)
    (u : Unit) (st' : GitState) (tr : List GitCmd)
    (h : pushSem env st remote source dest = (.ok u, st', tr)) :
    env.pushOk remote source dest = true := by
  unfold pushSem at h
  split at h
  · assumption
  · simp at h

/-- Helper: the new-commit computation of `deleteCasefilePaths` (empty
string, or mktree plus commit-tree) issues neither push nor update-ref. -/
theorem delNewCommit_trace (env : GitEnv) (st1 : GitState)
    (newRoot : List TreeEntry) (tree : String) :
    ∀ cmd ∈ (if newRoot.isEmpty then (Except.ok "", st1, ([] : List GitCmd))
             else
               match mktreeSem env st1 newRoot with
               | (.error e, st2, trM) => (.error e, st2, trM)
               | (.ok th, st2, trM) =>
                   match commitCasefilesTreeSem env st2 th [tree] "Delete casefile(s)" with
                   | (.error e, st3, trC) => (.error e, st3, trM ++ trC)
                   | (.ok nc, st3, trC) => (.ok nc, st3, trM ++ trC)).2.2,
      cmd.isUpdateRef = false ∧ cmd.isPush = false := by
  split
  · exact trace_safe_nil _
  · split
    · rename_i e st2 trM hmk
      exact trace_safe_of_all_eq
        (fun cmd hcmd => mktreeSem_trace env st1 _ cmd (by rw [hmk]; exact hcmd))
        ⟨rfl, rfl⟩
    · rename_i th st2 trM hmk
      split
      all_goals
        rename_i hcm
        refine trace_safe_append ?_ ?_
        · exact trace_safe_of_all_eq
            (fun cmd hcmd => mktreeSem_trace env st1 _ cmd (by rw [hmk]; exact hcmd))
            ⟨rfl, rfl⟩
        · exact trace_safe_of_all_eq
            (fun cmd hcmd => commitSem_trace env st2 th [tree] "Delete casefile(s)" cmd
              (by rw [hcm]; exact hcmd))
            ⟨rfl, rfl⟩

/-- Helper: the per-group phase trace restated for `delGroupPhase`. -/
theorem delGroupPhase_safe2 (env : GitEnv) (tree : String) (paths : List String)
    (groups0 : List (String × Option String)) (st : GitState) :
    ∀ cmd ∈ (delGroupPhase env tree paths groups0 st).2.2,
      cmd.isCommitTree = false ∧ cmd.isPush = false ∧ cmd.isUpdateRef = false := by
  unfold delGroupPhase
  exact delGroupPhase_safe env tree paths _ _ (trace_safe_nil _)

/-- Helper: every run of `shareCasefile` satisfies the
push-before-update-ref trace property. -/
theorem share_pushPrecedes (env : GitEnv) (st : GitState)
    (remote group inst content : String) :
    pushPrecedesUpdateRef env remote
      (shareCasefile env st remote group inst content).2.2 := by
  have h01 : ∀ cmd ∈ [GitCmd.revParse sharedCasefilesRef, GitCmd.hashObject content],
      cmd.isUpdateRef = false :=
    trace_safe_cons _ _ _ rfl (trace_safe_cons _ _ _ rfl (trace_safe_nil _))
  unfold shareCasefile
  dsimp only
  split
  · exact pushPrecedes_of_no_updateRef _ _ _ (no_updateRef_of_safe _ h01)
  · split
    · exact pushPrecedes_of_no_updateRef _ _ _ (no_updateRef_of_safe _
        (trace_safe_append h01 (trace_safe_cons _ _ _ rfl (trace_safe_nil _))))
    · rename_i ge1 hup
      split
      · rename_i e st1 trM hmk
        refine pushPrecedes_of_no_updateRef _ _ _ (no_updateRef_of_safe _ ?_)
        refine trace_safe_append
          (trace_safe_append h01 (trace_safe_cons _ _ _ rfl (trace_safe_nil _))) ?_
        exact trace_safe_of_all_eq
          (fun cmd hcmd => mktreeSem_trace env st _ cmd (by rw [hmk]; exact hcmd)) rfl
      · rename_i gh st1 trM hmk
        have htrM : ∀ cmd ∈ trM, cmd.isUpdateRef = false :=
          trace_safe_of_all_eq
            (fun cmd hcmd => mktreeSem_trace env st _ cmd (by rw [hmk]; exact hcmd)) rfl
        have htr2 : ∀ cmd ∈
            ([GitCmd.revParse sharedCasefilesRef, GitCmd.hashObject content] ++
              [GitCmd.lsTree (lsTreeArg
                (match revParseSem st sharedCasefilesRef with
                 | .ok c => c
                 | .error _ => gitEmptyTree) (some group))] ++ trM ++
              [GitCmd.lsTree (lsTreeArg
                (match revParseSem st sharedCasefilesRef with
                 | .ok c => c
                 | .error _ => gitEmptyTree) none)]),
            cmd.isUpdateRef = false := by
          refine trace_safe_append (trace_safe_append (trace_safe_append h01
            (trace_safe_cons _ _ _ rfl (trace_safe_nil _))) htrM)
            (trace_safe_cons _ _ _ rfl (trace_safe_nil _))
        split
        · rename_i e st2 trM2 hmk2
          refine pushPrecedes_of_no_updateRef _ _ _ (no_updateRef_of_safe _ ?_)
          refine trace_safe_append htr2 ?_
          exact trace_safe_of_all_eq
            (fun cmd hcmd => mktreeSem_trace env st1 _ cmd (by rw [hmk2]; exact hcmd)) rfl
        · rename_i nt st2 trM2 hmk2
          have htrM2 : ∀ cmd ∈ trM2, cmd.isUpdateRef = false :=
            trace_safe_of_all_eq
              (fun cmd hcmd => mktreeSem_trace env st1 _ cmd (by rw [hmk2]; exact hcmd)) rfl
          split
          · rename_i e st3 trC hcm
            refine pushPrecedes_of_no_updateRef _ _ _ (no_updateRef_of_safe _ ?_)
            refine trace_safe_append (trace_safe_append htr2 htrM2) ?_
            exact trace_safe_of_all_eq
              (fun cmd hcmd => commitSem_trace env st2 nt _ _ cmd
                (by rw [hcm]; exact hcmd)) rfl
          · rename_i nc st3 trC hcm
            have htrC : ∀ cmd ∈ trC, cmd.isUpdateRef = false :=
              trace_safe_of_all_eq
                (fun cmd hcmd => commitSem_trace env st2 nt _ _ cmd
                  (by rw [hcm]; exact hcmd)) rfl
            split
            · rename_i e st4 trP hpu
              have htrP : trP = [GitCmd.push remote nc sharedCasefilesRef] := by
                have h := pushSem_trace env st3 remote nc sharedCasefilesRef
                rw [hpu] at h
                exact h
              refine pushPrecedes_of_no_updateRef _ _ _ (no_updateRef_of_safe _ ?_)
              refine trace_safe_append
                (trace_safe_append (trace_safe_append htr2 htrM2) htrC) ?_
              rw [htrP]
              exact trace_safe_cons _ _ _ rfl (trace_safe_nil _)
            · rename_i u st4 trP hpu
              have htrP : trP = [GitCmd.push remote nc sharedCasefilesRef] := by
                have h := pushSem_trace env st3 remote nc sharedCasefilesRef
                rw [hpu] at h
                exact h
              rw [htrP]
              refine pushPrecedes_last env remote _ sharedCasefilesRef nc ?_ ?_
                (pushSem_ok_inv env st3 remote nc sharedCasefilesRef u st4 trP hpu)
              · refine no_updateRef_of_safe _ ?_
                refine trace_safe_append
                  (trace_safe_append (trace_safe_append htr2 htrM2) htrC) ?_
                exact trace_safe_cons _ _ _ rfl (trace_safe_nil _)
              · exact List.mem_append.mpr (Or.inr (by simp))

/-- Helper: every run of `deleteCasefilePaths` satisfies the
push-before-update-ref trace property. -/
theorem delete_pushPrecedes (env : GitEnv) (st : GitState) (remote : String)
    (paths : List String) :
    pushPrecedesUpdateRef env remote
      (deleteCasefilePaths env st remote paths).2.2 := by
  unfold deleteCasefilePaths
  dsimp only
  split
  · exact pushPrecedes_of_no_updateRef _ _ _ (no_updateRef_of_safe _
      (trace_safe_cons _ _ _ rfl (trace_safe_nil _)))
  · rename_i tree hrp
    split
    · rename_i e st1 tr1 hph
      refine pushPrecedes_of_no_updateRef _ _ _ (no_updateRef_of_safe _ ?_)
      refine trace_safe_cons _ _ _ rfl ?_
      intro cmd hcmd
      exact (delGroupPhase_safe2 env tree paths (groupsInit paths) st cmd
        (by rw [hph]; exact hcmd)).2.2
    · rename_i ph st1 tr1 hph
      have htr1 : ∀ cmd ∈ tr1, cmd.isUpdateRef = false := by
        intro cmd hcmd
        exact (delGroupPhase_safe2 env tree paths (groupsInit paths) st cmd
          (by rw [hph]; exact hcmd)).2.2
      split
      · exact pushPrecedes_of_no_updateRef _ _ _ (no_updateRef_of_safe _
          (trace_safe_cons _ _ _ rfl htr1))
      · have htr2 : ∀ cmd ∈
            ((GitCmd.revParse sharedCasefilesRef :: tr1) ++
              [GitCmd.lsTree (lsTreeArg tree none)]),
            cmd.isUpdateRef = false :=
          trace_safe_append (trace_safe_cons _ _ _ rfl htr1)
            (trace_safe_cons _ _ _ rfl (trace_safe_nil _))
        split
        · rename_i e st2 trN hnc
          refine pushPrecedes_of_no_updateRef _ _ _ (no_updateRef_of_safe _ ?_)
          refine trace_safe_append htr2 ?_
          intro cmd hcmd
          exact (delNewCommit_trace env st1 _ tree cmd (by rw [hnc]; exact hcmd)).1
        · rename_i nc st2 trN hnc
          have htrN : ∀ cmd ∈ trN, cmd.isUpdateRef = false := by
            intro cmd hcmd
            exact (delNewCommit_trace env st1 _ tree cmd (by rw [hnc]; exact hcmd)).1
          split
          · rename_i e st3 trP hpu
            have htrP : trP = [GitCmd.push remote nc sharedCasefilesRef] := by
              have h := pushSem_trace env st2 remote nc sharedCasefilesRef
              rw [hpu] at h
              exact h
            refine pushPrecedes_of_no_updateRef _ _ _ (no_updateRef_of_safe _ ?_)
            refine trace_safe_append (trace_safe_append htr2 htrN) ?_
            rw [htrP]
            exact trace_safe_cons _ _ _ rfl (trace_safe_nil _)
          · rename_i u st3 trP hpu
            have htrP : trP = [GitCmd.push remote nc sharedCasefilesRef] := by
              have h := pushSem_trace env st2 remote nc sharedCasefilesRef
              rw [hpu] at h
              exact h
            rw [htrP]
            refine pushPrecedes_last env remote _ sharedCasefilesRef nc ?_ ?_
              (pushSem_ok_inv env st2 remote nc sharedCasefilesRef u st3 trP hpu)
            · refine no_updateRef_of_safe _ ?_
              refine trace_safe_append (trace_safe_append htr2 htrN) ?_
              exact trace_safe_cons _ _ _ rfl (trace_safe_nil _)
            · exact List.mem_append.mpr (Or.inr (by simp))

/-- C5: in both `shareCasefile` and `deleteCasefilePaths`, the `update-ref`
invocation on the local shared-casefiles ref occurs only after the push to
the remote has completed successfully: any `update-ref` in the command
trace is strictly preceded by a successful `push` of the same commit to the
same ref, so when the push fails the local ref is never updated. -/
theorem update_ref_only_after_successful_push :
    (∀ (env : GitEnv) (st : GitState) (remote group inst content : String),
        pushPrecedesUpdateRef env remote
          (shareCasefile env st remote group inst content).2.2) ∧
    (∀ (env : GitEnv) (st : GitState) (remote : String) (paths : List String),
        pushPrecedesUpdateRef env remote
          (deleteCasefilePaths env st remote paths).2.2) :=
  ⟨share_pushPrecedes, delete_pushPrecedes⟩

/-- Closed witness for `update_ref_only_after_successful_push`: in the
concrete share run from `stB`, the update-ref at the end of the trace is
preceded by the successful push of the new commit. -/
theorem update_ref_only_after_successful_push_witness :
    GitCmd.push "origin" "CTTBjson" sharedCasefilesRef ∈
      [GitCmd.revParse sharedCasefilesRef, GitCmd.hashObject "json",
       GitCmd.lsTree (lsTreeArg "tip" (some "g")),
       GitCmd.mktree [⟨"100644", "blob", "Bjson", "i"⟩],
       GitCmd.lsTree (lsTreeArg "tip" none),
       GitCmd.mktree [⟨"040000", "tree", "TBjson", "g"⟩],
       GitCmd.commitTree "TTBjson" ["tip"] "Share casefile",
       GitCmd.push "origin" "CTTBjson" sharedCasefilesRef] ∧
    envW.pushOk "origin" "CTTBjson" sharedCasefilesRef = true :=
  update_ref_only_after_successful_push.1 envW stB "origin" "g" "i" "json"
    [GitCmd.revParse sharedCasefilesRef, GitCmd.hashObject "json",
     GitCmd.lsTree (lsTreeArg "tip" (some "g")),
     GitCmd.mktree [⟨"100644", "blob", "Bjson", "i"⟩],
     GitCmd.lsTree (lsTreeArg "tip" none),
     GitCmd.mktree [⟨"040000", "tree", "TBjson", "g"⟩],
     GitCmd.commitTree "TTBjson" ["tip"] "Share casefile",
     GitCmd.push "origin" "CTTBjson" sharedCasefilesRef]
    [] sharedCasefilesRef "CTTBjson" (by rfl)

end GitCasefile
